import Mathlib

/-!
Verification of `FixedBlockMemoryResource`.

A shallow embedding of `include/fixed_block_mr.hpp`: a fixed-capacity arena
allocator with a first-fit free-segment list (`free_segments_`) and a registry
of live allocations (`allocated_`).

* `std::size_t` and `std::uintptr_t` are natural numbers reduced modulo
  `WORD = 2 ^ 64` after every arithmetic operation.
* Pointers are addresses (natural numbers); the contents of the buffer are
  not modelled.
* `std::list` is `List`; an iterator is a position in the list.
* `throw std::bad_alloc()` is the result `none` of `do_allocate`.
* Applying `std::next` to `end()` is undefined behaviour; it is the result
  `none` of `insert_and_coalesce` and `do_deallocate`.
* The line written to `std::cerr` by `do_deallocate` is the boolean that
  `do_deallocate` returns next to the state.
-/

namespace FixedBlockMemoryResource

/-! ## Machine arithmetic -/

/-- Number of values of `std::size_t` and `std::uintptr_t`. -/
def WORD : Nat := 2 ^ 64

/-- Unsigned addition `a + b`. -/
def wadd (a b : Nat) : Nat := (a + b) % WORD

/-- Unsigned subtraction `a - b`. -/
def wsub (a b : Nat) : Nat := (a % WORD + (WORD - b % WORD)) % WORD

/-- Bitwise complement `~a`. -/
def wnot (a : Nat) : Nat := WORD - 1 - a % WORD

/-- Bitwise conjunction `a & b`. -/
def wand (a b : Nat) : Nat := (a % WORD) &&& (b % WORD)

/-! ## Data model -/

/-- A free byte range: `struct Segment { std::size_t offset; std::size_t size; }`. -/
structure Segment where
  offset : Nat
  size : Nat
deriving DecidableEq, Repr

/-- A live allocation: `struct AllocRec { void* ptr; std::size_t size; std::size_t offset; }`. -/
structure AllocRec where
  ptr : Nat
  size : Nat
  offset : Nat
deriving DecidableEq, Repr

/-- The data members of `FixedBlockMemoryResource` (the bytes of `buffer_` are not modelled). -/
structure State where
  base_addr_ : Nat
  total_size_ : Nat
  free_segments_ : List Segment
  allocated_ : List AllocRec
deriving DecidableEq, Repr

/-! ## Operations -/

/-- The helper `align_up(n, a)`: `(n + a - 1) & ~(a - 1)`. -/
def align_up (n a : Nat) : Nat :=
  wand (wsub (wadd n a) 1) (wnot (wsub a 1))

/-- The constructor. `max_align` is `alignof(std::max_align_t)` and `base` is the
address returned by `::operator new(total_size_)`. -/
def Construct (max_align base total_bytes : Nat) : State :=
  let total_size := align_up total_bytes max_align
  { base_addr_ := base % WORD
    total_size_ := total_size
    free_segments_ := [{ offset := 0, size := total_size }]
    allocated_ := [] }

/-- The local `seg_addr` of `do_allocate`: `base_addr_ + seg_off`. -/
def seg_addr (base seg_off : Nat) : Nat := wadd base seg_off

/-- The local `aligned_addr` of `do_allocate`:
`(seg_addr + (alignment - 1)) & ~(alignment - 1)`. -/
def aligned_addr (base seg_off alignment : Nat) : Nat :=
  wand (wadd (seg_addr base seg_off) (wsub alignment 1)) (wnot (wsub alignment 1))

/-- The local `padding` of `do_allocate`: `aligned_addr - seg_addr`. -/
def padding (base seg_off alignment : Nat) : Nat :=
  wsub (aligned_addr base seg_off alignment) (seg_addr base seg_off)

/-- The local `used_total` of `do_allocate`: `padding + bytes`. -/
def used_total (base bytes alignment : Nat) (seg : Segment) : Nat :=
  wadd (padding base seg.offset alignment) bytes

/-- The fit test of `do_allocate`: `padding + bytes <= seg_size`. -/
def fits (base bytes alignment : Nat) (seg : Segment) : Bool :=
  decide (used_total base bytes alignment seg ≤ seg.size)

/-- The local `result_offset` of `do_allocate`: `seg_off + padding`. -/
def result_offset (base alignment : Nat) (seg : Segment) : Nat :=
  wadd seg.offset (padding base seg.offset alignment)

/-- What the loop of `do_allocate` leaves behind when it selects a segment:
the locals `seg_off` and `padding` of the selected segment, the free list after
the carve and the record pushed onto `allocated_`. -/
structure Carve where
  seg_off : Nat
  padding : Nat
  free : List Segment
  record : AllocRec
deriving DecidableEq, Repr

/-- The loop of `do_allocate` over `free_segments_`, from the iterator position
whose remaining elements are the argument. `none` when the loop reaches `end()`. -/
def scan (base bytes alignment : Nat) : List Segment → Option Carve
  | [] => none
  | seg :: rest =>
    if fits base bytes alignment seg then
      let used := used_total base bytes alignment seg
      let off := result_offset base alignment seg
      let result_ptr := wadd base off
      let r : AllocRec := { ptr := result_ptr, size := bytes, offset := off }
      if used = seg.size then
        some { seg_off := seg.offset, padding := padding base seg.offset alignment,
               free := rest, record := r }
      else
        some { seg_off := seg.offset, padding := padding base seg.offset alignment,
               free := { offset := wadd seg.offset used, size := wsub seg.size used } :: rest,
               record := r }
    else
      match scan base bytes alignment rest with
      | none => none
      | some c => some { c with free := seg :: c.free }

/-- The member `do_allocate(bytes, alignment)`: the returned pointer and the new
state, or `none` for `throw std::bad_alloc()` (the state is then untouched). -/
def do_allocate (s : State) (bytes alignment : Nat) : Option (Nat × State) :=
  match scan s.base_addr_ bytes alignment s.free_segments_ with
  | none => none
  | some c =>
    some (c.record.ptr, { s with free_segments_ := c.free, allocated_ := s.allocated_ ++ [c.record] })

/-- The second half of `insert_and_coalesce`: `next = std::next(inserted)` and the
merge of `*inserted` with `*next`. The argument is the list from `inserted` on;
`none` when `inserted` is `end()`. -/
def merge_next : List Segment → Option (List Segment)
  | [] => none
  | cur :: [] => some [cur]
  | cur :: nxt :: rest =>
    if wadd cur.offset cur.size = nxt.offset then
      some ({ cur with size := wadd cur.size nxt.size } :: rest)
    else
      some (cur :: nxt :: rest)

/-- The member `insert_and_coalesce(seg)` on the list `free_segments_`.
`before` holds the elements in front of the insert position `it`, `after` the
elements from `it` on. -/
def insert_and_coalesce (fs : List Segment) (seg : Segment) : Option (List Segment) :=
  let before := fs.takeWhile (fun t => !decide (seg.offset < t.offset))
  let after := fs.dropWhile (fun t => !decide (seg.offset < t.offset))
  match before.getLast? with
  | none =>
    -- `inserted == begin()`
    merge_next (seg :: after)
  | some prev =>
    if wadd prev.offset prev.size = seg.offset then
      -- `prev->size += inserted->size; inserted = erase(inserted);`
      match merge_next after with
      | none => none
      | some tail =>
        some (before.dropLast ++ { prev with size := wadd prev.size seg.size } :: tail)
    else
      match merge_next (seg :: after) with
      | none => none
      | some tail => some (before ++ tail)

/-- The `std::find_if` of `do_deallocate`: the first record whose `ptr` is `p`,
and the list with that record erased. -/
def find_erase (p : Nat) : List AllocRec → Option (AllocRec × List AllocRec)
  | [] => none
  | r :: rest =>
    if r.ptr = p then some (r, rest)
    else
      match find_erase p rest with
      | none => none
      | some (hit, rest2) => some (hit, r :: rest2)

/-- The member `do_deallocate(p, bytes, alignment)`. The boolean is `true` when
the line `[PMR] deallocate: unknown pointer` is written to `std::cerr`;
`none` is undefined behaviour inside `insert_and_coalesce`. -/
def do_deallocate (s : State) (p _bytes _alignment : Nat) : Option (State × Bool) :=
  match find_erase p s.allocated_ with
  | none => some (s, true)
  | some (r, rest) =>
    match insert_and_coalesce s.free_segments_ { offset := r.offset, size := r.size } with
    | none => none
    | some fs => some ({ s with free_segments_ := fs, allocated_ := rest }, false)

/-! ## Call sequences -/

/-- One call of the public interface of `std::pmr::memory_resource`. -/
inductive Call where
  | allocate (bytes alignment : Nat)
  | deallocate (p bytes alignment : Nat)
deriving DecidableEq, Repr

/-- The state after one call. A `std::bad_alloc` leaves the state as it was;
`none` when the call has undefined behaviour. -/
def step (s : State) : Call → Option State
  | .allocate bytes alignment =>
    match do_allocate s bytes alignment with
    | none => some s
    | some (_, s2) => some s2
  | .deallocate p bytes alignment =>
    match do_deallocate s p bytes alignment with
    | none => none
    | some (s2, _) => some s2

/-- The state after a sequence of calls. -/
def run (s : State) : List Call → Option State
  | [] => some s
  | c :: cs =>
    match step s c with
    | none => none
    | some s2 => run s2 cs

/-! ## Byte ranges -/

/-- The byte at offset `x` lies in the range `[offset, offset + size)` of the segment. -/
def Segment.covers (seg : Segment) (x : Nat) : Prop :=
  seg.offset ≤ x ∧ x < seg.offset + seg.size

instance (seg : Segment) (x : Nat) : Decidable (seg.covers x) := by
  unfold Segment.covers
  exact inferInstance

/-- The byte range of a live allocation, as `do_deallocate` builds it:
`Segment newseg{ it->offset, it->size }`. -/
def AllocRec.range (r : AllocRec) : Segment := { offset := r.offset, size := r.size }

/-- The byte ranges of the live allocations, in registry order. -/
def live (s : State) : List Segment := s.allocated_.map AllocRec.range

/-- Two ranges have no byte in common. -/
def NoCommonByte (a b : Segment) : Prop := ∀ x, ¬ (a.covers x ∧ b.covers x)

/-- How many ranges of the list contain the byte at offset `x`. -/
def cover (l : List Segment) (x : Nat) : Nat := l.countP (fun seg => decide (seg.covers x))

/-- The bytes that a call skips as alignment padding: for a successful
`allocate`, the range `[seg_off, seg_off + padding)` in front of the carved block. -/
def call_gap (s : State) : Call → List Segment
  | .allocate bytes alignment =>
    match scan s.base_addr_ bytes alignment s.free_segments_ with
    | none => []
    | some c => [{ offset := c.seg_off, size := c.padding }]
  | .deallocate _ _ _ => []

/-- The padding ranges skipped along a sequence of calls. -/
def gaps (s : State) : List Call → List Segment
  | [] => []
  | c :: cs =>
    match step s c with
    | none => []
    | some s2 => call_gap s c ++ gaps s2 cs

/-- A call whose `padding + bytes` cannot exceed a `std::size_t`: the alignment
is a power of two and `bytes + alignment` is at most `2 ^ 64`. -/
def Call.in_range : Call → Prop
  | .allocate bytes alignment => ∃ k, k < 64 ∧ alignment = 2 ^ k ∧ bytes + alignment ≤ WORD
  | .deallocate _ _ _ => True

/-- The partition invariant: the capacity is a `std::size_t`, every range of the
free list, of the registry and of the skipped padding `G` ends at or below
`total_size_`, and every byte offset below `total_size_` lies in exactly one of
these ranges while no other offset lies in any. -/
def Partitioned (s : State) (G : List Segment) : Prop :=
  s.total_size_ < WORD
    ∧ (∀ seg ∈ s.free_segments_ ++ live s ++ G, seg.offset + seg.size ≤ s.total_size_)
    ∧ ∀ x, cover (s.free_segments_ ++ live s ++ G) x = if x < s.total_size_ then 1 else 0

/-! ## Shape of the free list -/

/-- The segments are sorted strictly ascending by offset. -/
def StrictlyAscending (l : List Segment) : Prop :=
  l.Pairwise (fun a b => a.offset < b.offset)

/-- Every segment ends at or before the offset of every later segment. -/
def EndsBeforeNext (l : List Segment) : Prop :=
  l.Pairwise (fun a b => a.offset + a.size ≤ b.offset)

/-- No segment ends exactly at the offset of a later segment. -/
def NonAdjacent (l : List Segment) : Prop :=
  l.Pairwise (fun a b => a.offset + a.size ≠ b.offset)

/-- The number of bytes described by a list of segments. -/
def total_bytes_of (l : List Segment) : Nat := (l.map Segment.size).sum

/-- A call that is in range and, when it is an `allocate`, asks for at least one byte. -/
def Call.positive : Call → Prop
  | .allocate bytes alignment => 1 ≤ bytes ∧ (Call.allocate bytes alignment).in_range
  | .deallocate _ _ _ => True

/-- The ordering invariant: every free segment ends at or before the offset of
every later one, and no free segment and no live allocation is empty. -/
def Ordered (s : State) : Prop :=
  EndsBeforeNext s.free_segments_
    ∧ (∀ t ∈ s.free_segments_, 0 < t.size)
    ∧ ∀ r ∈ s.allocated_, 0 < r.size

/-- The state after `n` successful calls `allocate(bytes, alignment)` in a row,
with no release in between; `none` when one of them throws `std::bad_alloc`. -/
def repeat_allocate (s : State) (bytes alignment : Nat) : Nat → Option State
  | 0 => some s
  | n + 1 =>
    match do_allocate s bytes alignment with
    | none => none
    | some (_, s2) => repeat_allocate s2 bytes alignment n

/-! ## Machine arithmetic and the alignment computation -/

theorem WORD_eq : WORD = 2 ^ 64 := rfl

theorem WORD_pos : 0 < WORD := by decide

theorem wadd_lt (a b : Nat) : wadd a b < WORD := Nat.mod_lt _ WORD_pos

theorem wsub_lt (a b : Nat) : wsub a b < WORD := Nat.mod_lt _ WORD_pos

theorem wadd_eq (a b : Nat) (h : a + b < WORD) : wadd a b = a + b :=
  Nat.mod_eq_of_lt h

theorem wsub_eq (a b : Nat) (ha : a < WORD) (hb : b ≤ a) : wsub a b = a - b := by
  unfold wsub
  have hb2 : b < WORD := Nat.lt_of_le_of_lt hb ha
  rw [Nat.mod_eq_of_lt ha, Nat.mod_eq_of_lt hb2]
  have e : a + (WORD - b) = (a - b) + WORD := by omega
  rw [e, Nat.add_mod_right]
  exact Nat.mod_eq_of_lt (by omega)

/-- A power of two that fits in a `std::size_t` divides `WORD`. -/
theorem pow_dvd_WORD (k : Nat) (hk : k < 64) : 2 ^ k ∣ WORD := by
  rw [WORD_eq]
  exact Nat.pow_dvd_pow 2 (Nat.le_of_lt hk)

theorem pow_lt_WORD (k : Nat) (hk : k < 64) : 2 ^ k < WORD := by
  rw [WORD_eq]
  exact Nat.pow_lt_pow_right (by decide) hk

theorem mod_WORD_mod (x k : Nat) (hk : k < 64) : x % WORD % 2 ^ k = x % 2 ^ k :=
  Nat.mod_mod_of_dvd x (pow_dvd_WORD k hk)

/-- Clearing the low `k` bits of a word: `x & ~(2^k - 1)`. -/
theorem land_mask (x k : Nat) (hx : x < 2 ^ 64) (hk : k ≤ 64) :
    x &&& (2 ^ 64 - 1 - (2 ^ k - 1)) = 2 ^ k * (x / 2 ^ k) := by
  have hpos : 0 < 2 ^ k := Nat.two_pow_pos k
  have hle : 2 ^ k ≤ 2 ^ 64 := Nat.pow_le_pow_right (by decide) hk
  have hm : 2 ^ 64 - 1 - (2 ^ k - 1) = 2 ^ 64 - ((2 ^ k - 1) + 1) := by omega
  have hlt : 2 ^ k - 1 < 2 ^ 64 := by omega
  apply Nat.eq_of_testBit_eq
  intro i
  rw [Nat.testBit_and, hm, Nat.testBit_two_pow_sub_succ hlt, Nat.testBit_two_pow_sub_one,
    Nat.testBit_mul_pow_two, ← Nat.shiftRight_eq_div_pow, Nat.testBit_shiftRight]
  by_cases hik : i < k
  · simp [hik]
  · have hki : k ≤ i := Nat.le_of_not_lt hik
    have e : k + (i - k) = i := by omega
    by_cases hi : i < 64
    · simp [hik, hi, hki, e]
    · have : x.testBit i = false := by
        apply Nat.testBit_lt_two_pow
        exact Nat.lt_of_lt_of_le hx (Nat.pow_le_pow_right (by decide) (Nat.le_of_not_lt hi))
      simp [hik, hi, hki, e, this]

/-- The value of `aligned_addr` for a power-of-two alignment: the sum
`seg_addr + (alignment - 1)`, reduced to a word, rounded down to a multiple of
the alignment. -/
theorem aligned_addr_eq (base off k : Nat) (hk : k < 64) :
    aligned_addr base off (2 ^ k)
      = 2 ^ k * (((seg_addr base off + (2 ^ k - 1)) % WORD) / 2 ^ k) := by
  have hal : 2 ^ k < WORD := pow_lt_WORD k hk
  have hpos : 0 < 2 ^ k := Nat.two_pow_pos k
  have h1 : wsub (2 ^ k) 1 = 2 ^ k - 1 := by
    unfold wsub
    rw [Nat.mod_eq_of_lt hal]
    have : (1 : Nat) % WORD = 1 := by decide
    rw [this]
    have e : 2 ^ k + (WORD - 1) = (2 ^ k - 1) + WORD := by
      have := WORD_pos
      omega
    rw [e, Nat.add_mod_right]
    exact Nat.mod_eq_of_lt (by omega)
  have h2 : wnot (2 ^ k - 1) = 2 ^ 64 - 1 - (2 ^ k - 1) := by
    unfold wnot
    rw [Nat.mod_eq_of_lt (by omega : 2 ^ k - 1 < WORD)]
    rfl
  unfold aligned_addr wand
  rw [h1, h2]
  have hy : wadd (seg_addr base off) (2 ^ k - 1) < 2 ^ 64 := wadd_lt _ _
  have hm : (2 ^ 64 - 1 - (2 ^ k - 1)) % WORD = 2 ^ 64 - 1 - (2 ^ k - 1) :=
    Nat.mod_eq_of_lt (by rw [WORD_eq]; omega)
  rw [hm, Nat.mod_eq_of_lt (wadd_lt _ _), land_mask _ k hy (Nat.le_of_lt hk)]
  rfl

/-- The padding computed by `do_allocate` is the distance from the segment's
address to the next multiple of the alignment. -/
theorem padding_eq (base off k : Nat) (hk : k < 64) :
    padding base off (2 ^ k) = (2 ^ k - seg_addr base off % 2 ^ k) % 2 ^ k := by
  have hal : 2 ^ k < WORD := pow_lt_WORD k hk
  have hpos : 0 < 2 ^ k := Nat.two_pow_pos k
  obtain ⟨m, hm⟩ := pow_dvd_WORD k hk
  have hA : seg_addr base off < WORD := wadd_lt _ _
  unfold padding
  rw [aligned_addr_eq base off k hk]
  generalize seg_addr base off = A at hA ⊢
  generalize hal' : 2 ^ k = al at *
  have hdm := Nat.div_add_mod A al
  have hr : A % al < al := Nat.mod_lt _ hpos
  generalize A / al = q at hdm
  generalize A % al = r at hdm hr
  subst hdm
  have hq : q < m := by
    by_contra hc
    have : al * m ≤ al * q := Nat.mul_le_mul_left al (Nat.le_of_not_lt hc)
    omega
  have hq1 : al * (q + 1) ≤ al * m := Nat.mul_le_mul_left al hq
  rw [Nat.mul_add, Nat.mul_one] at hq1
  unfold wsub
  by_cases hr0 : r = 0
  · subst hr0
    have e1 : (al * q + 0 + (al - 1)) % WORD = al * q + (al - 1) :=
      Nat.mod_eq_of_lt (by omega)
    have e2 : (al * q + (al - 1)) / al = q := by
      rw [Nat.mul_add_div hpos, Nat.div_eq_of_lt (by omega)]
      rfl
    rw [e1, e2]
    simp only [Nat.add_zero] at hA ⊢
    rw [Nat.mod_eq_of_lt hA]
    have e3 : al * q + (WORD - (al * q)) = WORD := by omega
    simp [e3]
  · by_cases hlast : q + 1 = m
    · have hW : WORD = al * q + al := by
        rw [hm, ← hlast, Nat.mul_add, Nat.mul_one]
      have e1 : (al * q + r + (al - 1)) % WORD = r - 1 := by
        have : al * q + r + (al - 1) = (r - 1) + WORD := by omega
        rw [this, Nat.add_mod_right]
        exact Nat.mod_eq_of_lt (by omega)
      have e2 : (r - 1) / al = 0 := Nat.div_eq_of_lt (by omega)
      rw [e1, e2, Nat.mul_zero, Nat.zero_mod, Nat.zero_add, Nat.mod_eq_of_lt hA]
      have e3 : WORD - (al * q + r) = al - r := by omega
      rw [e3, Nat.mod_eq_of_lt (by omega : al - r < WORD)]
      exact (Nat.mod_eq_of_lt (by omega : al - r < al)).symm
    · have hq2 : q + 2 ≤ m := by omega
      have hq3 : al * (q + 2) ≤ al * m := Nat.mul_le_mul_left al hq2
      rw [Nat.mul_add] at hq3
      have e1 : (al * q + r + (al - 1)) % WORD = al * (q + 1) + (r - 1) := by
        rw [Nat.mod_eq_of_lt (by omega), Nat.mul_add, Nat.mul_one]
        omega
      have e2 : (al * (q + 1) + (r - 1)) / al = q + 1 := by
        rw [Nat.mul_add_div hpos, Nat.div_eq_of_lt (by omega)]
      rw [e1, e2, Nat.mod_eq_of_lt hA, Nat.mod_eq_of_lt (by omega : al - r < al)]
      have e5 : al * (q + 1) % WORD = al * (q + 1) := Nat.mod_eq_of_lt (by
        rw [Nat.mul_add, Nat.mul_one]; omega)
      rw [e5]
      have e6 : al * (q + 1) + (WORD - (al * q + r)) = (al - r) + WORD := by
        rw [Nat.mul_add, Nat.mul_one]; omega
      rw [e6, Nat.add_mod_right]
      exact Nat.mod_eq_of_lt (by omega)

theorem padding_lt (base off k : Nat) (hk : k < 64) : padding base off (2 ^ k) < 2 ^ k := by
  rw [padding_eq base off k hk]
  exact Nat.mod_lt _ (Nat.two_pow_pos k)

/-- With alignment 1 the padding is zero at every address. -/
theorem padding_one (base off : Nat) : padding base off 1 = 0 := by
  have := padding_eq base off 0 (by decide)
  simpa [Nat.mod_one] using this

/-- The address `base_addr_ + result_offset` handed out for a segment is a
multiple of a power-of-two alignment, for every base address and offset. -/
theorem result_ptr_aligned (base k : Nat) (seg : Segment) (hk : k < 64) :
    wadd base (result_offset base (2 ^ k) seg) % 2 ^ k = 0 := by
  have hpos : 0 < 2 ^ k := Nat.two_pow_pos k
  unfold result_offset
  rw [padding_eq base seg.offset k hk]
  unfold wadd seg_addr wadd
  rw [mod_WORD_mod _ k hk, Nat.add_mod, mod_WORD_mod _ k hk, ← Nat.add_mod, mod_WORD_mod _ k hk,
    ← Nat.add_assoc]
  generalize base + seg.offset = A
  generalize hal : 2 ^ k = al at hpos ⊢
  have hdm := Nat.div_add_mod A al
  have hr : A % al < al := Nat.mod_lt _ hpos
  by_cases hr0 : A % al = 0
  · rw [hr0, Nat.sub_zero, Nat.mod_self, Nat.add_zero]
    exact hr0
  · rw [Nat.mod_eq_of_lt (by omega : al - A % al < al)]
    have e : A + (al - A % al) = al * (A / al + 1) := by
      rw [Nat.mul_add, Nat.mul_one]
      omega
    rw [e]
    exact Nat.mul_mod_right _ _

/-! ## The loop of `do_allocate` and the lookup of `do_deallocate` -/

/-- The shape of a successful `scan`: the list splits around the selected
segment, every segment in front of it fails the fit test, the record holds the
carved block, and the selected segment is erased or shrunk in place. -/
theorem scan_some (base bytes alignment : Nat) (fs : List Segment) (c : Carve)
    (h : scan base bytes alignment fs = some c) :
    ∃ pre seg post, fs = pre ++ seg :: post
      ∧ (∀ t ∈ pre, fits base bytes alignment t = false)
      ∧ fits base bytes alignment seg = true
      ∧ c.seg_off = seg.offset
      ∧ c.padding = padding base seg.offset alignment
      ∧ c.record = { ptr := wadd base (result_offset base alignment seg), size := bytes,
                     offset := result_offset base alignment seg }
      ∧ c.free = pre ++
          (if used_total base bytes alignment seg = seg.size then post
           else { offset := wadd seg.offset (used_total base bytes alignment seg),
                  size := wsub seg.size (used_total base bytes alignment seg) } :: post) := by
  induction fs generalizing c with
  | nil => simp [scan] at h
  | cons t rest ih =>
    unfold scan at h
    by_cases hf : fits base bytes alignment t = true
    · rw [if_pos hf] at h
      refine ⟨[], t, rest, rfl, ?_, hf, ?_, ?_, ?_, ?_⟩
      · intro u hu
        cases hu
      · by_cases hu : used_total base bytes alignment t = t.size
        · simp only [hu, if_true] at h
          cases h
          rfl
        · simp only [hu, if_false] at h
          cases h
          rfl
      · by_cases hu : used_total base bytes alignment t = t.size
        · simp only [hu, if_true] at h
          cases h
          rfl
        · simp only [hu, if_false] at h
          cases h
          rfl
      · by_cases hu : used_total base bytes alignment t = t.size
        · simp only [hu, if_true] at h
          cases h
          rfl
        · simp only [hu, if_false] at h
          cases h
          rfl
      · by_cases hu : used_total base bytes alignment t = t.size
        · simp only [hu, if_true] at h
          cases h
          rw [if_pos hu]
          rfl
        · simp only [hu, if_false] at h
          cases h
          rw [if_neg hu]
          rfl
    · rw [if_neg hf] at h
      cases hs : scan base bytes alignment rest with
      | none => simp [hs] at h
      | some c2 =>
        simp only [hs] at h
        cases h
        obtain ⟨pre, seg, post, e, hpre, hseg, hoff, hpad, hrec, hfree⟩ := ih c2 hs
        refine ⟨t :: pre, seg, post, by simp [e], ?_, hseg, hoff, hpad, hrec, ?_⟩
        · intro u hu
          rcases List.mem_cons.mp hu with rfl | hu
          · simpa using hf
          · exact hpre u hu
        · simp [hfree]

/-- The loop fails exactly when no segment passes the fit test. -/
theorem scan_none (base bytes alignment : Nat) (fs : List Segment) :
    scan base bytes alignment fs = none ↔ ∀ t ∈ fs, fits base bytes alignment t = false := by
  induction fs with
  | nil => simp [scan]
  | cons t rest ih =>
    unfold scan
    by_cases hf : fits base bytes alignment t = true
    · rw [if_pos hf]
      constructor
      · intro h
        simp only at h
        split at h <;> cases h
      · intro h
        have := h t (List.mem_cons_self _ _)
        rw [hf] at this
        cases this
    · rw [if_neg hf]
      cases hs : scan base bytes alignment rest with
      | none =>
        simp only [true_iff]
        intro u hu
        rcases List.mem_cons.mp hu with rfl | hu
        · simpa using hf
        · exact ih.mp hs u hu
      | some c2 =>
        constructor
        · intro h
          cases h
        intro h
        have : scan base bytes alignment rest = none :=
          ih.mpr (fun u hu => h u (List.mem_cons_of_mem _ hu))
        rw [hs] at this
        cases this

/-- The lookup of `do_deallocate` fails exactly when no record carries the pointer. -/
theorem find_erase_none (p : Nat) (l : List AllocRec) :
    find_erase p l = none ↔ ∀ r ∈ l, r.ptr ≠ p := by
  induction l with
  | nil => simp [find_erase]
  | cons r rest ih =>
    unfold find_erase
    by_cases hp : r.ptr = p
    · simp [hp]
    · rw [if_neg hp]
      cases hf : find_erase p rest with
      | none =>
        have := ih.mp hf
        simp only [List.mem_cons, forall_eq_or_imp, true_iff]
        exact ⟨hp, this⟩
      | some hit =>
        have : ¬ ∀ r ∈ rest, r.ptr ≠ p := fun hall => by
          rw [ih.mpr hall] at hf
          cases hf
        constructor
        · intro h
          cases h
        · intro h
          exact absurd (fun u hu => h u (List.mem_cons_of_mem _ hu)) this

/-- The shape of a successful lookup in `do_deallocate`: the hit is the first
record that carries the pointer, and only that record is erased. -/
theorem find_erase_some (p : Nat) (l : List AllocRec) (r : AllocRec) (rest : List AllocRec)
    (h : find_erase p l = some (r, rest)) :
    ∃ l1 l2, l = l1 ++ r :: l2 ∧ rest = l1 ++ l2 ∧ r.ptr = p ∧ ∀ q ∈ l1, q.ptr ≠ p := by
  induction l generalizing rest with
  | nil => simp [find_erase] at h
  | cons a tl ih =>
    unfold find_erase at h
    by_cases hp : a.ptr = p
    · rw [if_pos hp] at h
      simp only [Option.some.injEq, Prod.mk.injEq] at h
      obtain ⟨rfl, rfl⟩ := h
      exact ⟨[], tl, rfl, rfl, hp, by simp⟩
    · rw [if_neg hp] at h
      cases hf : find_erase p tl with
      | none => simp [hf] at h
      | some hit =>
        obtain ⟨hit1, hit2⟩ := hit
        simp only [hf, Option.some.injEq, Prod.mk.injEq] at h
        obtain ⟨rfl, rfl⟩ := h
        obtain ⟨l1, l2, e, e2, hptr, hl1⟩ := ih hit2 hf
        refine ⟨a :: l1, l2, by simp [e], by simp [e2], hptr, ?_⟩
        intro q hq
        rcases List.mem_cons.mp hq with rfl | hq
        · exact hp
        · exact hl1 q hq

/-- A release whose pointer no record carries returns the state as it was,
with the diagnostic. -/
theorem do_deallocate_of_absent (s : State) (p bytes alignment : Nat)
    (h : ∀ r ∈ s.allocated_, r.ptr ≠ p) :
    do_deallocate s p bytes alignment = some (s, true) := by
  unfold do_deallocate
  rw [(find_erase_none p s.allocated_).mpr h]

/-! ## Covered bytes -/

theorem cover_nil (x : Nat) : cover [] x = 0 := rfl

theorem cover_cons (seg : Segment) (l : List Segment) (x : Nat) :
    cover (seg :: l) x = (if seg.covers x then 1 else 0) + cover l x := by
  unfold cover
  rw [List.countP_cons]
  by_cases h : seg.covers x
  · simp [h]
    omega
  · simp [h]

theorem cover_append (l1 l2 : List Segment) (x : Nat) :
    cover (l1 ++ l2) x = cover l1 x + cover l2 x := by
  unfold cover
  exact List.countP_append _ _ _

theorem cover_pos_iff (l : List Segment) (x : Nat) :
    0 < cover l x ↔ ∃ seg ∈ l, seg.covers x := by
  unfold cover
  rw [List.countP_pos_iff]
  simp

/-- A range of size zero contains no byte. -/
theorem covers_size_zero (o x : Nat) : ¬ (Segment.mk o 0).covers x := by
  unfold Segment.covers
  simp

/-- Carving a block of `b` bytes behind `p` bytes of padding out of a segment
splits its range into the padding, the block and the remaining tail. -/
theorem cover_carve (o sz p b x : Nat) (h : p + b ≤ sz) :
    (if (Segment.mk (o + (p + b)) (sz - (p + b))).covers x then 1 else 0)
      + (if (Segment.mk (o + p) b).covers x then 1 else 0)
      + (if (Segment.mk o p).covers x then 1 else 0)
      = (if (Segment.mk o sz).covers x then 1 else 0) := by
  unfold Segment.covers
  simp only
  split_ifs <;> omega

/-- Merging two adjacent ranges keeps the covered bytes. -/
theorem cover_merge (o1 s1 o2 s2 x : Nat) (h : o1 + s1 = o2) :
    (if (Segment.mk o1 (s1 + s2)).covers x then 1 else 0)
      = (if (Segment.mk o1 s1).covers x then 1 else 0)
        + (if (Segment.mk o2 s2).covers x then 1 else 0) := by
  unfold Segment.covers
  simp only
  split_ifs <;> omega

/-- When the ranges of a list cover no byte twice, they are pairwise disjoint. -/
theorem pairwise_of_cover_le_one (l : List Segment) (h : ∀ x, cover l x ≤ 1) :
    l.Pairwise NoCommonByte := by
  induction l with
  | nil => exact List.Pairwise.nil
  | cons a rest ih =>
    refine List.Pairwise.cons ?_ (ih ?_)
    · intro b hb x hx
      have h1 := h x
      rw [cover_cons, if_pos hx.1] at h1
      have : 0 < cover rest x := (cover_pos_iff rest x).mpr ⟨b, hb, hx.2⟩
      omega
    · intro x
      have h1 := h x
      rw [cover_cons] at h1
      omega

/-- The step `merge_next` keeps the covered bytes and the bound on the ranges. -/
theorem merge_next_cover (l l2 : List Segment) (T : Nat) (hT : T < WORD)
    (hl : ∀ t ∈ l, t.offset + t.size ≤ T) (h : merge_next l = some l2) :
    (∀ t ∈ l2, t.offset + t.size ≤ T) ∧ ∀ x, cover l2 x = cover l x := by
  match l, h, hl with
  | [], h, _ => cases h
  | [cur], h, hl =>
    cases h
    exact ⟨hl, fun _ => rfl⟩
  | cur :: nxt :: rest, h, hl =>
    obtain ⟨o1, s1⟩ := cur
    obtain ⟨o2, s2⟩ := nxt
    have hc : o1 + s1 ≤ T := hl ⟨o1, s1⟩ (by simp)
    have hn : o2 + s2 ≤ T := hl ⟨o2, s2⟩ (by simp)
    unfold merge_next at h
    simp only [wadd_eq o1 s1 (by omega)] at h
    by_cases hadj : o1 + s1 = o2
    · rw [if_pos hadj] at h
      simp only [wadd_eq s1 s2 (by omega), Option.some.injEq] at h
      subst h
      constructor
      · intro t ht
        rcases List.mem_cons.mp ht with rfl | ht
        · show o1 + (s1 + s2) ≤ T
          omega
        · exact hl t (by simp [ht])
      · intro x
        simp only [cover_cons]
        have := cover_merge o1 s1 o2 s2 x hadj
        omega
    · rw [if_neg hadj] at h
      cases h
      exact ⟨hl, fun _ => rfl⟩

/-- The member `insert_and_coalesce`, when it returns, adds exactly the bytes of the
inserted segment to the covered bytes and keeps the bound on the ranges. -/
theorem insert_and_coalesce_cover (fs : List Segment) (seg : Segment) (fs2 : List Segment)
    (T : Nat) (hT : T < WORD) (hfs : ∀ t ∈ fs, t.offset + t.size ≤ T)
    (hseg : seg.offset + seg.size ≤ T) (h : insert_and_coalesce fs seg = some fs2) :
    (∀ t ∈ fs2, t.offset + t.size ≤ T) ∧ ∀ x, cover fs2 x = cover fs x + cover [seg] x := by
  unfold insert_and_coalesce at h
  have hsplit := List.takeWhile_append_dropWhile (fun t => !decide (seg.offset < t.offset)) fs
  generalize List.takeWhile (fun t => !decide (seg.offset < t.offset)) fs = before at h hsplit
  generalize List.dropWhile (fun t => !decide (seg.offset < t.offset)) fs = after at h hsplit
  subst hsplit
  have hbefore : ∀ t ∈ before, t.offset + t.size ≤ T := fun t ht => hfs t (by simp [ht])
  have hafter : ∀ t ∈ after, t.offset + t.size ≤ T := fun t ht => hfs t (by simp [ht])
  have hsa : ∀ t ∈ seg :: after, t.offset + t.size ≤ T := by
    intro t ht
    rcases List.mem_cons.mp ht with rfl | ht
    · exact hseg
    · exact hafter t ht
  simp only at h
  cases hlast : before.getLast? with
  | none =>
    rw [hlast] at h
    have hnil : before = [] := List.getLast?_eq_none_iff.mp hlast
    subst hnil
    obtain ⟨hb, hc⟩ := merge_next_cover _ _ T hT hsa h
    refine ⟨hb, fun x => ?_⟩
    rw [hc x]
    simp only [cover_cons, cover_nil, List.nil_append]
    omega
  | some prev =>
    rw [hlast] at h
    have hdl : before.dropLast ++ [prev] = before :=
      List.dropLast_append_getLast? prev (by simp [hlast])
    have hprev : prev.offset + prev.size ≤ T := hbefore prev (by rw [← hdl]; simp)
    have hdrop : ∀ t ∈ before.dropLast, t.offset + t.size ≤ T :=
      fun t ht => hbefore t (by rw [← hdl]; simp [ht])
    simp only [wadd_eq prev.offset prev.size (by omega)] at h
    by_cases hadj : prev.offset + prev.size = seg.offset
    · rw [if_pos hadj] at h
      cases hm : merge_next after with
      | none => simp [hm] at h
      | some tail =>
        simp only [hm, Option.some.injEq] at h
        subst h
        obtain ⟨hb, hc⟩ := merge_next_cover _ _ T hT hafter hm
        rw [wadd_eq prev.size seg.size (by omega)]
        constructor
        · intro t ht
          rcases List.mem_append.mp ht with ht | ht
          · exact hdrop t ht
          · rcases List.mem_cons.mp ht with rfl | ht
            · show prev.offset + (prev.size + seg.size) ≤ T
              omega
            · exact hb t ht
        · intro x
          have hm2 := cover_merge prev.offset prev.size seg.offset seg.size x hadj
          have hcb : cover before x
              = cover before.dropLast x + (if prev.covers x then 1 else 0) := by
            rw [← hdl, cover_append, cover_cons, cover_nil, hdl]
            omega
          simp only [cover_append, cover_cons, cover_nil, hc x, hcb]
          have e1 : (Segment.mk prev.offset prev.size).covers x ↔ prev.covers x := Iff.rfl
          have e2 : (Segment.mk seg.offset seg.size).covers x ↔ seg.covers x := Iff.rfl
          simp only [e1, e2] at hm2
          omega
    · rw [if_neg hadj] at h
      cases hm : merge_next (seg :: after) with
      | none => simp [hm] at h
      | some tail =>
        simp only [hm, Option.some.injEq] at h
        subst h
        obtain ⟨hb, hc⟩ := merge_next_cover _ _ T hT hsa hm
        constructor
        · intro t ht
          rcases List.mem_append.mp ht with ht | ht
          · exact hbefore t ht
          · exact hb t ht
        · intro x
          simp only [cover_append, cover_cons, cover_nil, hc x]
          omega

/-! ## The partition invariant -/

theorem live_append (s : State) (r : AllocRec) (fs : List Segment) :
    live { s with free_segments_ := fs, allocated_ := s.allocated_ ++ [r] }
      = live s ++ [r.range] := by
  simp [live]

/-- A successful `do_allocate` with a request in range keeps the partition, the
skipped padding being added to the padding ranges. -/
theorem do_allocate_partitioned (s : State) (G : List Segment) (bytes k p : Nat) (s2 : State)
    (hk : k < 64) (hb : bytes + 2 ^ k ≤ WORD) (hinv : Partitioned s G)
    (h : do_allocate s bytes (2 ^ k) = some (p, s2)) :
    Partitioned s2 (G ++ call_gap s (.allocate bytes (2 ^ k))) := by
  obtain ⟨hT, hbound, hcov⟩ := hinv
  unfold do_allocate at h
  cases hs : scan s.base_addr_ bytes (2 ^ k) s.free_segments_ with
  | none => simp [hs] at h
  | some c =>
    simp only [hs, Option.some.injEq, Prod.mk.injEq] at h
    obtain ⟨-, hs2⟩ := h
    subst hs2
    obtain ⟨pre, seg, post, e, -, hfit, hoff, hpad, hrec, hfree⟩ := scan_some _ _ _ _ c hs
    obtain ⟨o, sz⟩ := seg
    have hcg : call_gap s (.allocate bytes (2 ^ k))
        = [⟨o, padding s.base_addr_ o (2 ^ k)⟩] := by
      simp [call_gap, hs, hoff, hpad]
    have hpl := padding_lt s.base_addr_ o k hk
    have hsegb : o + sz ≤ s.total_size_ := hbound ⟨o, sz⟩ (by simp [e])
    have hu : used_total s.base_addr_ bytes (2 ^ k) ⟨o, sz⟩
        = padding s.base_addr_ o (2 ^ k) + bytes :=
      wadd_eq (padding s.base_addr_ o (2 ^ k)) bytes (by omega)
    have hle : padding s.base_addr_ o (2 ^ k) + bytes ≤ sz := by
      unfold fits at hfit
      rw [hu] at hfit
      simpa using hfit
    have hro : result_offset s.base_addr_ (2 ^ k) ⟨o, sz⟩
        = o + padding s.base_addr_ o (2 ^ k) :=
      wadd_eq o (padding s.base_addr_ o (2 ^ k)) (by omega)
    have hrange : c.record.range = ⟨o + padding s.base_addr_ o (2 ^ k), bytes⟩ := by
      rw [hrec, hro]
      rfl
    rw [hu] at hfree
    simp only [wadd_eq o (padding s.base_addr_ o (2 ^ k) + bytes) (by omega),
      wsub_eq sz (padding s.base_addr_ o (2 ^ k) + bytes) (by omega) hle] at hfree
    rw [hcg]
    generalize padding s.base_addr_ o (2 ^ k) = pad at *
    refine ⟨hT, ?_, ?_⟩
    · intro t ht
      rw [live_append, hrange, hfree] at ht
      simp only [List.mem_append, List.mem_cons, List.mem_singleton, List.not_mem_nil,
        or_false] at ht
      have hold : ∀ u, (u ∈ pre ∨ u ∈ post ∨ u ∈ live s ∨ u ∈ G) →
          u.offset + u.size ≤ s.total_size_ := by
        intro u hu2
        apply hbound u
        rw [e]
        simp only [List.mem_append, List.mem_cons]
        tauto
      rcases ht with ((ht | ht) | ht | ht) | ht | ht
      · exact hold t (Or.inl ht)
      · by_cases hx : pad + bytes = sz
        · rw [if_pos hx] at ht
          exact hold t (Or.inr (Or.inl ht))
        · rw [if_neg hx] at ht
          rcases List.mem_cons.mp ht with rfl | ht
          · show o + (pad + bytes) + (sz - (pad + bytes)) ≤ s.total_size_
            omega
          · exact hold t (Or.inr (Or.inl ht))
      · exact hold t (Or.inr (Or.inr (Or.inl ht)))
      · subst ht
        show o + pad + bytes ≤ s.total_size_
        omega
      · exact hold t (Or.inr (Or.inr (Or.inr ht)))
      · subst ht
        show o + pad ≤ s.total_size_
        omega
    · intro x
      have hc := hcov x
      rw [e] at hc
      have hcar := cover_carve o sz pad bytes x hle
      rw [live_append, hrange, hfree]
      simp only [cover_append, cover_cons, cover_nil] at hc ⊢
      by_cases hx : pad + bytes = sz
      · rw [if_pos hx]
        have hz : sz - (pad + bytes) = 0 := by omega
        rw [hz, if_neg (covers_size_zero _ x)] at hcar
        omega
      · rw [if_neg hx]
        simp only [cover_cons]
        omega

/-- A `do_deallocate` that returns keeps the partition. -/
theorem do_deallocate_partitioned (s : State) (G : List Segment) (p bytes alignment : Nat)
    (s2 : State) (flag : Bool) (hinv : Partitioned s G)
    (h : do_deallocate s p bytes alignment = some (s2, flag)) :
    Partitioned s2 G := by
  obtain ⟨hT, hbound, hcov⟩ := hinv
  unfold do_deallocate at h
  cases hf : find_erase p s.allocated_ with
  | none =>
    simp only [hf, Option.some.injEq, Prod.mk.injEq] at h
    obtain ⟨rfl, -⟩ := h
    exact ⟨hT, hbound, hcov⟩
  | some hit =>
    obtain ⟨r, rest⟩ := hit
    simp only [hf] at h
    obtain ⟨l1, l2, e, e2, -, -⟩ := find_erase_some p _ r rest hf
    have hlive : live s = l1.map AllocRec.range ++ r.range :: l2.map AllocRec.range := by
      simp [live, e]
    have hfs : ∀ t ∈ s.free_segments_, t.offset + t.size ≤ s.total_size_ :=
      fun t ht => hbound t (by simp [ht])
    have hr : r.range.offset + r.range.size ≤ s.total_size_ :=
      hbound r.range (by simp [hlive])
    cases hi : insert_and_coalesce s.free_segments_ ⟨r.offset, r.size⟩ with
    | none => simp [hi] at h
    | some fs =>
      simp only [hi, Option.some.injEq, Prod.mk.injEq] at h
      obtain ⟨rfl, -⟩ := h
      obtain ⟨hb, hc⟩ := insert_and_coalesce_cover _ _ fs s.total_size_ hT hfs hr hi
      have hlive2 : live { s with free_segments_ := fs, allocated_ := rest }
          = l1.map AllocRec.range ++ l2.map AllocRec.range := by
        simp [live, e2]
      refine ⟨hT, ?_, ?_⟩
      · intro t ht
        rw [hlive2] at ht
        simp only [List.mem_append] at ht
        rcases ht with (ht | ht | ht) | ht
        · exact hb t ht
        · exact hbound t (by rw [hlive]; simp [ht])
        · exact hbound t (by rw [hlive]; simp [ht])
        · exact hbound t (by simp [ht])
      · intro x
        have hc0 := hcov x
        have hcx := hc x
        rw [hlive] at hc0
        rw [hlive2]
        simp only [cover_append, cover_cons, cover_nil] at hc0 hcx ⊢
        omega

/-- The state built by the constructor is partitioned, with no padding skipped. -/
theorem Construct_partitioned (max_align base total_bytes : Nat) :
    Partitioned (Construct max_align base total_bytes) [] := by
  have hT : align_up total_bytes max_align < WORD := by
    unfold align_up wand
    exact Nat.lt_of_le_of_lt Nat.and_le_left (Nat.mod_lt _ WORD_pos)
  refine ⟨hT, ?_, ?_⟩
  · intro t ht
    simp [Construct, live] at ht
    subst ht
    simp [Construct]
  · intro x
    simp only [Construct, live, List.map_nil, List.append_nil, cover_cons, cover_nil]
    unfold Segment.covers
    simp

/-- The partition invariant along a sequence of calls in range. -/
theorem run_partitioned (calls : List Call) (s : State) (G : List Segment) (s2 : State)
    (hwf : ∀ c ∈ calls, c.in_range) (hinv : Partitioned s G) (h : run s calls = some s2) :
    Partitioned s2 (G ++ gaps s calls) := by
  induction calls generalizing s G with
  | nil =>
    simp only [run, Option.some.injEq] at h
    subst h
    simpa [gaps] using hinv
  | cons c cs ih =>
    unfold run at h
    cases hst : step s c with
    | none => simp [hst] at h
    | some s1 =>
      simp only [hst] at h
      have hrest : ∀ c2 ∈ cs, c2.in_range := fun c2 hc2 => hwf c2 (List.mem_cons_of_mem _ hc2)
      have hc : c.in_range := hwf c (List.mem_cons_self _ _)
      have hstep : Partitioned s1 (G ++ call_gap s c) := by
        cases c with
        | allocate bytes alignment =>
          obtain ⟨k, hk, rfl, hb⟩ := hc
          unfold step at hst
          cases hd : do_allocate s bytes (2 ^ k) with
          | none =>
            simp only [hd, Option.some.injEq] at hst
            subst hst
            have : scan s.base_addr_ bytes (2 ^ k) s.free_segments_ = none := by
              unfold do_allocate at hd
              cases hs : scan s.base_addr_ bytes (2 ^ k) s.free_segments_ with
              | none => rfl
              | some c => simp [hs] at hd
            simpa [call_gap, this] using hinv
          | some res =>
            obtain ⟨p, s3⟩ := res
            simp only [hd, Option.some.injEq] at hst
            subst hst
            exact do_allocate_partitioned s G bytes k p s3 hk hb hinv hd
        | deallocate p bytes alignment =>
          unfold step at hst
          cases hd : do_deallocate s p bytes alignment with
          | none => simp [hd] at hst
          | some res =>
            obtain ⟨s3, flag⟩ := res
            simp only [hd, Option.some.injEq] at hst
            subst hst
            simpa [call_gap] using do_deallocate_partitioned s G p bytes alignment s3 flag hinv hd
      have := ih s1 (G ++ call_gap s c) hrest hstep h
      simpa [gaps, hst, List.append_assoc] using this

/-- When every `allocate` of the sequence asks for alignment 1, no padding is skipped. -/
theorem gaps_alignment_one (calls : List Call) (s : State)
    (h1 : ∀ bytes alignment, Call.allocate bytes alignment ∈ calls → alignment = 1) :
    ∀ g ∈ gaps s calls, g.size = 0 := by
  induction calls generalizing s with
  | nil =>
    intro g hg
    simp [gaps] at hg
  | cons c cs ih =>
    intro g hg
    unfold gaps at hg
    cases hst : step s c with
    | none => simp [hst] at hg
    | some s1 =>
      simp only [hst, List.mem_append] at hg
      rcases hg with hg | hg
      · cases c with
        | allocate bytes alignment =>
          have ha : alignment = 1 := h1 bytes alignment (List.mem_cons_self _ _)
          subst ha
          unfold call_gap at hg
          cases hs : scan s.base_addr_ bytes 1 s.free_segments_ with
          | none => simp [hs] at hg
          | some cv =>
            simp only [hs, List.mem_singleton] at hg
            obtain ⟨pre, seg, post, -, -, -, -, hpad, -, -⟩ := scan_some _ _ _ _ cv hs
            rw [hg]
            show cv.padding = 0
            rw [hpad]
            exact padding_one _ _
        | deallocate p bytes alignment => simp [call_gap] at hg
      · exact ih s1 (fun b a hm => h1 b a (List.mem_cons_of_mem _ hm)) g hg

/-! ## C1: partition -/

/-- C1 (amended). Partition with padding: in every state reached from the
constructor by calls in range (power-of-two alignment, `bytes + alignment` at
most `2 ^ 64`), the free segments, the live allocation ranges and the padding
ranges skipped by the successful allocations are pairwise disjoint, end at or
below `total_size_`, and contain every byte offset below `total_size_`; bytes
skipped as padding belong to no free segment and to no live allocation. When
every `allocate` asks for alignment 1 the padding ranges are empty. -/
theorem partition_with_padding (max_align base total_bytes : Nat) (calls : List Call)
    (s : State) (hwf : ∀ c ∈ calls, c.in_range)
    (h : run (Construct max_align base total_bytes) calls = some s) :
    (∀ x, x < s.total_size_ ↔
        ∃ seg ∈ s.free_segments_ ++ live s ++ gaps (Construct max_align base total_bytes) calls,
          seg.covers x)
      ∧ (s.free_segments_ ++ live s
          ++ gaps (Construct max_align base total_bytes) calls).Pairwise NoCommonByte
      ∧ (∀ seg ∈ s.free_segments_ ++ live s
            ++ gaps (Construct max_align base total_bytes) calls,
          seg.offset + seg.size ≤ s.total_size_)
      ∧ ((∀ bytes alignment, Call.allocate bytes alignment ∈ calls → alignment = 1) →
          ∀ g ∈ gaps (Construct max_align base total_bytes) calls, g.size = 0) := by
  have hp := run_partitioned calls _ [] s hwf (Construct_partitioned max_align base total_bytes) h
  rw [List.nil_append] at hp
  obtain ⟨-, hbound, hcov⟩ := hp
  refine ⟨?_, ?_, hbound, gaps_alignment_one calls _⟩
  · intro x
    rw [← cover_pos_iff, hcov x]
    by_cases hx : x < s.total_size_
    · simp [hx]
    · simp [hx]
  · apply pairwise_of_cover_le_one
    intro x
    rw [hcov x]
    split <;> omega

theorem partition_with_padding_witness :
    (∀ c ∈ [Call.allocate 1 1, Call.allocate 8 8], c.in_range)
      ∧ (∀ x, x < 64 ↔
          ∃ seg ∈ [(⟨16, 48⟩ : Segment)]
              ++ live ⟨4096, 64, [⟨16, 48⟩], [⟨4096, 1, 0⟩, ⟨4104, 8, 8⟩]⟩
              ++ gaps (Construct 16 4096 64) [Call.allocate 1 1, Call.allocate 8 8],
            seg.covers x)
      ∧ ([(⟨16, 48⟩ : Segment)]
          ++ live ⟨4096, 64, [⟨16, 48⟩], [⟨4096, 1, 0⟩, ⟨4104, 8, 8⟩]⟩
          ++ gaps (Construct 16 4096 64)
              [Call.allocate 1 1, Call.allocate 8 8]).Pairwise NoCommonByte
      ∧ (∀ seg ∈ [(⟨16, 48⟩ : Segment)]
            ++ live ⟨4096, 64, [⟨16, 48⟩], [⟨4096, 1, 0⟩, ⟨4104, 8, 8⟩]⟩
            ++ gaps (Construct 16 4096 64) [Call.allocate 1 1, Call.allocate 8 8],
          seg.offset + seg.size ≤ 64)
      ∧ ((∀ bytes alignment,
            Call.allocate bytes alignment ∈ [Call.allocate 1 1, Call.allocate 8 8] →
              alignment = 1) →
          ∀ g ∈ gaps (Construct 16 4096 64) [Call.allocate 1 1, Call.allocate 8 8],
            g.size = 0) :=
  have hwf : ∀ c ∈ [Call.allocate 1 1, Call.allocate 8 8], c.in_range := by
    intro c hc
    simp only [List.mem_cons, List.mem_singleton, List.not_mem_nil, or_false] at hc
    rcases hc with rfl | rfl
    · exact ⟨0, by decide, by decide, by decide⟩
    · exact ⟨3, by decide, by decide, by decide⟩
  ⟨hwf, partition_with_padding 16 4096 64 [Call.allocate 1 1, Call.allocate 8 8]
    ⟨4096, 64, [⟨16, 48⟩], [⟨4096, 1, 0⟩, ⟨4104, 8, 8⟩]⟩ hwf (by decide)⟩

/-- C1 (counterexample). After `Construct(64)`, `allocate(1, 1)` and
`allocate(8, 8)` at base address 4096, the byte at offset 1 is below
`total_size_` but lies in no free segment and in no live allocation: the free
segments and live allocations do not cover `[0, total_size_)`. -/
theorem partition_gap_counterexample :
    ∃ s, run (Construct 16 4096 64) [Call.allocate 1 1, Call.allocate 8 8] = some s
      ∧ ¬ (∀ x, x < s.total_size_ ↔ ∃ seg ∈ s.free_segments_ ++ live s, seg.covers x) := by
  refine ⟨⟨4096, 64, [⟨16, 48⟩], [⟨4096, 1, 0⟩, ⟨4104, 8, 8⟩]⟩, by decide, ?_⟩
  intro hall
  obtain ⟨seg, hmem, hc⟩ := (hall 1).mp (by decide)
  have hno : ∀ t ∈ ([(⟨16, 48⟩ : Segment)]
      ++ live ⟨4096, 64, [⟨16, 48⟩], [⟨4096, 1, 0⟩, ⟨4104, 8, 8⟩]⟩), ¬ t.covers 1 := by
    decide
  exact hno seg hmem hc

/-! ## C2: no overlap -/

/-- C2 (failing input). After `Construct(64)` at base address 4096 and
`allocate(1, 1)`, the request `allocate(2^64 - 1, 2)` is accepted: the registry
holds a live block at offset 2 while the free list still holds the segment
`(1, 63)`, so the byte at offset 2 is both live and free; the following
`allocate(8, 1)` returns the block at offsets `[1, 9)`, which overlaps the
live block at offset 2. -/
theorem overlap_after_wrapped_request :
    run (Construct 16 4096 64) [Call.allocate 1 1, Call.allocate (2 ^ 64 - 1) 2]
        = some ⟨4096, 64, [⟨1, 63⟩], [⟨4096, 1, 0⟩, ⟨4098, 2 ^ 64 - 1, 2⟩]⟩
      ∧ (⟨1, 63⟩ : Segment).covers 2
      ∧ (AllocRec.range ⟨4098, 2 ^ 64 - 1, 2⟩).covers 2
      ∧ do_allocate ⟨4096, 64, [⟨1, 63⟩], [⟨4096, 1, 0⟩, ⟨4098, 2 ^ 64 - 1, 2⟩]⟩ 8 1
          = some (4097, ⟨4096, 64, [⟨9, 55⟩],
              [⟨4096, 1, 0⟩, ⟨4098, 2 ^ 64 - 1, 2⟩, ⟨4097, 8, 1⟩]⟩)
      ∧ (AllocRec.range ⟨4097, 8, 1⟩).covers 2
      ∧ ¬ ([(⟨1, 63⟩ : Segment)]
            ++ live ⟨4096, 64, [⟨1, 63⟩], [⟨4096, 1, 0⟩, ⟨4098, 2 ^ 64 - 1, 2⟩]⟩).Pairwise
          NoCommonByte := by
  refine ⟨by decide, by decide, by decide, by decide, by decide, ?_⟩
  intro hp
  have hp2 : List.Pairwise NoCommonByte
      ((⟨1, 63⟩ : Segment) :: [⟨0, 1⟩, ⟨2, 2 ^ 64 - 1⟩]) := hp
  have hno : NoCommonByte ⟨1, 63⟩ ⟨2, 2 ^ 64 - 1⟩ :=
    List.rel_of_pairwise_cons hp2 (by simp)
  exact hno 2 ⟨by decide, by decide⟩

/-! ## C3: alignment -/

/-- C3. Alignment: for every state (hence every base address), every size and
every power-of-two alignment `2 ^ k` representable in a `std::size_t`, when
`do_allocate` succeeds the returned pointer is a multiple of the alignment; the
pointer is the `ptr` of the one record pushed onto `allocated_`, and
`base_addr_` plus that record's offset is a multiple of the alignment too. -/
theorem allocate_aligned (s : State) (bytes k p : Nat) (s2 : State) (hk : k < 64)
    (h : do_allocate s bytes (2 ^ k) = some (p, s2)) :
    p % 2 ^ k = 0
      ∧ ∃ r : AllocRec, s2.allocated_ = s.allocated_ ++ [r] ∧ r.ptr = p
          ∧ (s.base_addr_ + r.offset) % 2 ^ k = 0 := by
  unfold do_allocate at h
  cases hs : scan s.base_addr_ bytes (2 ^ k) s.free_segments_ with
  | none => simp [hs] at h
  | some c =>
    simp only [hs, Option.some.injEq, Prod.mk.injEq] at h
    obtain ⟨hp, hs2⟩ := h
    obtain ⟨pre, seg, post, -, -, -, -, -, hrec, -⟩ := scan_some _ _ _ _ c hs
    have hal := result_ptr_aligned s.base_addr_ k seg hk
    have hptr : c.record.ptr = wadd s.base_addr_ (result_offset s.base_addr_ (2 ^ k) seg) := by
      rw [hrec]
    have hoff : c.record.offset = result_offset s.base_addr_ (2 ^ k) seg := by
      rw [hrec]
    refine ⟨?_, c.record, ?_, hp, ?_⟩
    · rw [← hp, hptr]
      exact hal
    · rw [← hs2]
    · rw [hoff]
      unfold wadd at hal
      rw [mod_WORD_mod _ k hk] at hal
      exact hal

theorem allocate_aligned_witness :
    (3 < 64) ∧ 4104 % 2 ^ 3 = 0
      ∧ ∃ r : AllocRec, [(⟨4096, 1, 0⟩ : AllocRec), ⟨4104, 8, 8⟩] = [⟨4096, 1, 0⟩] ++ [r]
          ∧ r.ptr = 4104 ∧ (4096 + r.offset) % 2 ^ 3 = 0 :=
  ⟨by decide,
   allocate_aligned ⟨4096, 64, [⟨1, 63⟩], [⟨4096, 1, 0⟩]⟩ 8 3 4104
     ⟨4096, 64, [⟨16, 48⟩], [⟨4096, 1, 0⟩, ⟨4104, 8, 8⟩]⟩ (by decide) (by decide)⟩

/-! ## C4: first fit -/

/-- First fit in the arithmetic of the code: when `do_allocate` succeeds, the
free list splits around the selected segment; the selected segment passes the fit test
`padding + bytes <= seg_size` of the code (and satisfies `padding + bytes ≤ size`
in exact arithmetic when the alignment is a power of two and
`bytes + alignment` is at most `2 ^ 64`); no segment in front of it passes the
test, and none satisfies `padding + bytes ≤ size` in exact arithmetic either;
the returned pointer is `base_addr_ + (seg_off + padding)`. In particular, with
free segments `[(0,16),(32,16)]` the request `allocate(8, 1)` is carved at
offset 0, whatever the base address, capacity and registry. -/
theorem allocate_first_fit (s : State) (bytes alignment p : Nat) (s2 : State)
    (h : do_allocate s bytes alignment = some (p, s2)) :
    (∃ pre seg post, s.free_segments_ = pre ++ seg :: post
      ∧ fits s.base_addr_ bytes alignment seg = true
      ∧ (∀ k, k < 64 → alignment = 2 ^ k → bytes + alignment ≤ WORD →
          padding s.base_addr_ seg.offset alignment + bytes ≤ seg.size)
      ∧ (∀ t ∈ pre, fits s.base_addr_ bytes alignment t = false)
      ∧ (∀ t ∈ pre, ¬ (padding s.base_addr_ t.offset alignment + bytes ≤ t.size))
      ∧ p = wadd s.base_addr_ (wadd seg.offset (padding s.base_addr_ seg.offset alignment)))
    ∧ (∀ base total : Nat, ∀ regs : List AllocRec,
        do_allocate ⟨base, total, [⟨0, 16⟩, ⟨32, 16⟩], regs⟩ 8 1
          = some (base % WORD,
              ⟨base, total, [⟨8, 8⟩, ⟨32, 16⟩], regs ++ [⟨base % WORD, 8, 0⟩]⟩)) := by
  constructor
  · unfold do_allocate at h
    cases hs : scan s.base_addr_ bytes alignment s.free_segments_ with
    | none => simp [hs] at h
    | some c =>
      simp only [hs, Option.some.injEq, Prod.mk.injEq] at h
      obtain ⟨hp, -⟩ := h
      obtain ⟨pre, seg, post, e, hpre, hseg, -, -, hrec, -⟩ := scan_some _ _ _ _ c hs
      refine ⟨pre, seg, post, e, hseg, ?_, hpre, ?_, ?_⟩
      · intro k hk hal hb
        subst hal
        have hpl := padding_lt s.base_addr_ seg.offset k hk
        unfold fits used_total at hseg
        rw [wadd_eq (padding s.base_addr_ seg.offset (2 ^ k)) bytes (by omega)] at hseg
        simpa using hseg
      · intro t ht hfit
        have hf := hpre t ht
        unfold fits used_total wadd at hf
        have hle : (padding s.base_addr_ t.offset alignment + bytes) % WORD
            ≤ padding s.base_addr_ t.offset alignment + bytes := Nat.mod_le _ _
        have : (padding s.base_addr_ t.offset alignment + bytes) % WORD ≤ t.size :=
          Nat.le_trans hle hfit
        simp [this] at hf
      · rw [← hp, hrec]
        rfl
  · intro base total regs
    have hp : padding base 0 1 = 0 := by
      have := padding_eq base 0 0 (by decide)
      simpa [Nat.mod_one] using this
    have hfit : fits base 8 1 ⟨0, 16⟩ = true := by
      unfold fits used_total
      rw [hp]
      decide
    have hu : used_total base 8 1 ⟨0, 16⟩ = 8 := by
      unfold used_total
      rw [hp]
      decide
    have hr : result_offset base 1 ⟨0, 16⟩ = 0 := by
      unfold result_offset
      rw [hp]
      decide
    have hb : wadd base 0 = base % WORD := rfl
    simp [do_allocate, scan, hfit, hu, hr, hb]
    decide

theorem allocate_first_fit_witness :
    (∃ pre seg post, [(⟨0, 4⟩ : Segment), ⟨16, 4⟩, ⟨32, 16⟩] = pre ++ seg :: post
      ∧ fits 4096 8 8 seg = true
      ∧ (∀ k, k < 64 → 8 = 2 ^ k → 8 + 8 ≤ WORD → padding 4096 seg.offset 8 + 8 ≤ seg.size)
      ∧ (∀ t ∈ pre, fits 4096 8 8 t = false)
      ∧ (∀ t ∈ pre, ¬ (padding 4096 t.offset 8 + 8 ≤ t.size))
      ∧ 4128 = wadd 4096 (wadd seg.offset (padding 4096 seg.offset 8)))
    ∧ (∀ base total : Nat, ∀ regs : List AllocRec,
        do_allocate ⟨base, total, [⟨0, 16⟩, ⟨32, 16⟩], regs⟩ 8 1
          = some (base % WORD,
              ⟨base, total, [⟨8, 8⟩, ⟨32, 16⟩], regs ++ [⟨base % WORD, 8, 0⟩]⟩)) :=
  allocate_first_fit ⟨4096, 48, [⟨0, 4⟩, ⟨16, 4⟩, ⟨32, 16⟩], []⟩ 8 8 4128
    ⟨4096, 48, [⟨0, 4⟩, ⟨16, 4⟩, ⟨40, 8⟩], [⟨4128, 8, 32⟩]⟩ (by decide)

/-- C4 (failing input). In the 64-byte arena at base address 4096, after
`allocate(1, 1)`, `allocate(7, 1)`, `allocate(8, 1)` and the release of the
second block the free list is `[(1,7),(16,48)]`. For the request
`allocate(2^64 - 1, 2)` no segment of this list satisfies
`padding + size ≤ segment.size` (the paddings are 1 and 0), yet `do_allocate`
succeeds and takes the block from the segment `(1, 7)`: it returns the address
4098 at offset 2, because `padding + bytes` wraps to 0 in the fit test. -/
theorem first_fit_takes_unfit_segment :
    run (Construct 16 4096 64)
        [Call.allocate 1 1, Call.allocate 7 1, Call.allocate 8 1, Call.deallocate 4097 7 1]
        = some ⟨4096, 64, [⟨1, 7⟩, ⟨16, 48⟩], [⟨4096, 1, 0⟩, ⟨4104, 8, 8⟩]⟩
      ∧ padding 4096 1 2 = 1 ∧ padding 4096 16 2 = 0
      ∧ (∀ seg ∈ [(⟨1, 7⟩ : Segment), ⟨16, 48⟩],
          ¬ (padding 4096 seg.offset 2 + (2 ^ 64 - 1) ≤ seg.size))
      ∧ fits 4096 (2 ^ 64 - 1) 2 ⟨1, 7⟩ = true
      ∧ do_allocate ⟨4096, 64, [⟨1, 7⟩, ⟨16, 48⟩], [⟨4096, 1, 0⟩, ⟨4104, 8, 8⟩]⟩ (2 ^ 64 - 1) 2
          = some (4098, ⟨4096, 64, [⟨1, 7⟩, ⟨16, 48⟩],
              [⟨4096, 1, 0⟩, ⟨4104, 8, 8⟩, ⟨4098, 2 ^ 64 - 1, 2⟩]⟩) := by
  refine ⟨by decide, by decide, by decide, by decide, by decide, by decide⟩

/-! ## C5: out of memory -/

/-- C5 (failing input). After `Construct(64)` at base address 4096 and
`allocate(1, 1)`, the only free segment is `(1, 63)`; for the request
`allocate(2^64 - 1, 2)` its padding is 1 and `padding + bytes = 2^64` exceeds
its size, so no free segment satisfies the request, yet `do_allocate` does not
throw: the sum wraps to 0 and a block at address 4098 is returned. -/
theorem allocate_accepts_wrapped_request :
    run (Construct 16 4096 64) [Call.allocate 1 1]
        = some ⟨4096, 64, [⟨1, 63⟩], [⟨4096, 1, 0⟩]⟩
      ∧ padding 4096 1 2 = 1
      ∧ (∀ seg ∈ [(⟨1, 63⟩ : Segment)],
          ¬ (padding 4096 seg.offset 2 + (2 ^ 64 - 1) ≤ seg.size))
      ∧ do_allocate ⟨4096, 64, [⟨1, 63⟩], [⟨4096, 1, 0⟩]⟩ (2 ^ 64 - 1) 2
          = some (4098, ⟨4096, 64, [⟨1, 63⟩], [⟨4096, 1, 0⟩, ⟨4098, 2 ^ 64 - 1, 2⟩]⟩) := by
  refine ⟨by decide, by decide, by decide, by decide⟩

/-! ## C6: release -/

/-- A release that completes: in a partitioned state, when `do_deallocate`
returns without the diagnostic, the registry has lost exactly the first record
that carries the pointer, the other records keep their order, and the bytes
covered by the free list are the bytes covered before together with the range
of that record; the size and alignment passed by the caller play no part. -/
theorem do_deallocate_returns_block (s : State) (G : List Segment) (p bytes alignment : Nat)
    (s2 : State) (hinv : Partitioned s G)
    (h : do_deallocate s p bytes alignment = some (s2, false)) :
    ∃ l1 r l2, s.allocated_ = l1 ++ r :: l2 ∧ r.ptr = p ∧ (∀ q ∈ l1, q.ptr ≠ p)
      ∧ s2.allocated_ = l1 ++ l2
      ∧ (∀ x, cover s2.free_segments_ x = cover s.free_segments_ x + cover [r.range] x)
      ∧ ∀ bytes2 alignment2, do_deallocate s p bytes2 alignment2 = some (s2, false) := by
  obtain ⟨hT, hbound, -⟩ := hinv
  unfold do_deallocate at h
  cases hf : find_erase p s.allocated_ with
  | none => simp [hf] at h
  | some hit =>
    obtain ⟨r, rest⟩ := hit
    simp only [hf] at h
    obtain ⟨l1, l2, e, e2, hptr, hl1⟩ := find_erase_some p _ r rest hf
    have hfs : ∀ t ∈ s.free_segments_, t.offset + t.size ≤ s.total_size_ :=
      fun t ht => hbound t (by simp [ht])
    have hr : r.range.offset + r.range.size ≤ s.total_size_ :=
      hbound r.range (by simp [live, e])
    cases hi : insert_and_coalesce s.free_segments_ ⟨r.offset, r.size⟩ with
    | none => simp [hi] at h
    | some fs =>
      simp only [hi, Option.some.injEq, Prod.mk.injEq, and_true] at h
      subst h
      obtain ⟨-, hc⟩ := insert_and_coalesce_cover _ _ fs s.total_size_ hT hfs hr hi
      refine ⟨l1, r, l2, e, hptr, hl1, e2, hc, ?_⟩
      intro bytes2 alignment2
      unfold do_deallocate
      simp only [hf, hi]

/-- C6 (failing input). In the 64-byte arena at base address 4096 the requests
`allocate(1, 1)`, `allocate(2^64 - 1, 2)`, `allocate(1, 1)` and `allocate(8, 8)`
succeed and return 4096, 4098, 4097 and 4104; after the release of 4097 the
free list is `[(1,1),(16,48)]` and the registry holds the record
`{4098, 2^64 - 1, 2}`. Releasing 4098 returns without the diagnostic and removes
that record, but the free list becomes `[(1,0),(16,48)]`: byte 1, free before
the release, is no longer free, and byte 2, the first byte of the released
block, is not free either. The block is merged into the segment `(1, 1)` in
front of it and `prev->size += inserted->size` wraps to 0. -/
theorem release_loses_free_byte :
    run (Construct 16 4096 64)
        [Call.allocate 1 1, Call.allocate (2 ^ 64 - 1) 2, Call.allocate 1 1, Call.allocate 8 8,
         Call.deallocate 4097 1 1]
        = some ⟨4096, 64, [⟨1, 1⟩, ⟨16, 48⟩],
            [⟨4096, 1, 0⟩, ⟨4098, 2 ^ 64 - 1, 2⟩, ⟨4104, 8, 8⟩]⟩
      ∧ do_deallocate ⟨4096, 64, [⟨1, 1⟩, ⟨16, 48⟩],
            [⟨4096, 1, 0⟩, ⟨4098, 2 ^ 64 - 1, 2⟩, ⟨4104, 8, 8⟩]⟩ 4098 (2 ^ 64 - 1) 2
          = some (⟨4096, 64, [⟨1, 0⟩, ⟨16, 48⟩], [⟨4096, 1, 0⟩, ⟨4104, 8, 8⟩]⟩, false)
      ∧ cover [(⟨1, 1⟩ : Segment), ⟨16, 48⟩] 1 = 1
      ∧ cover [(⟨1, 0⟩ : Segment), ⟨16, 48⟩] 1 = 0
      ∧ cover [AllocRec.range ⟨4098, 2 ^ 64 - 1, 2⟩] 2 = 1
      ∧ cover [(⟨1, 0⟩ : Segment), ⟨16, 48⟩] 2 = 0 := by
  refine ⟨by decide, by decide, by decide, by decide, by decide, by decide⟩

/-! ## C7: invalid free -/

/-- C7. Invalid free is a no-op: for every state and every pointer that no
record of `allocated_` carries, `do_deallocate` writes the unknown-pointer
diagnostic and returns with the free list and the registry (the whole state)
unchanged, whatever size and alignment the caller passes. -/
theorem deallocate_unknown_pointer (s : State) (p bytes alignment : Nat)
    (h : ∀ r ∈ s.allocated_, r.ptr ≠ p) :
    do_deallocate s p bytes alignment = some (s, true) :=
  do_deallocate_of_absent s p bytes alignment h

theorem deallocate_unknown_pointer_witness :
    (∀ r ∈ [(⟨4096, 16, 0⟩ : AllocRec)], r.ptr ≠ 4112)
      ∧ do_deallocate ⟨4096, 48, [⟨16, 32⟩], [⟨4096, 16, 0⟩]⟩ 4112 16 1
          = some (⟨4096, 48, [⟨16, 32⟩], [⟨4096, 16, 0⟩]⟩, true) :=
  ⟨by decide,
   deallocate_unknown_pointer ⟨4096, 48, [⟨16, 32⟩], [⟨4096, 16, 0⟩]⟩ 4112 16 1 (by decide)⟩

/-! ## C8: double release -/

/-- C8 (amended). Double release: for every state and every pointer carried by
exactly one record of `allocated_`, when a first release of the pointer
completes, no record carries the pointer any more, and a second release, with
any size and alignment, writes the unknown-pointer diagnostic and returns with
the free list and the registry unchanged. -/
theorem double_release_detected (s : State) (p bytes alignment bytes2 alignment2 : Nat)
    (s1 : State) (h1 : do_deallocate s p bytes alignment = some (s1, false))
    (huniq : s.allocated_.countP (fun r => decide (r.ptr = p)) = 1) :
    (∀ r ∈ s1.allocated_, r.ptr ≠ p)
      ∧ do_deallocate s1 p bytes2 alignment2 = some (s1, true) := by
  have habs : ∀ r ∈ s1.allocated_, r.ptr ≠ p := by
    unfold do_deallocate at h1
    cases hf : find_erase p s.allocated_ with
    | none => simp [hf] at h1
    | some hit =>
      obtain ⟨r, rest⟩ := hit
      simp only [hf] at h1
      cases hi : insert_and_coalesce s.free_segments_ ⟨r.offset, r.size⟩ with
      | none => simp [hi] at h1
      | some fs =>
        simp only [hi, Option.some.injEq, Prod.mk.injEq, and_true] at h1
        subst h1
        obtain ⟨l1, l2, e, e2, hptr, -⟩ := find_erase_some p _ r rest hf
        rw [e, List.countP_append, List.countP_cons] at huniq
        simp only [hptr, decide_True, if_true] at huniq
        have h0 : List.countP (fun r => decide (r.ptr = p)) (l1 ++ l2) = 0 := by
          rw [List.countP_append]
          omega
        intro q hq
        have hq2 : q ∈ l1 ++ l2 := by
          rw [← e2]
          exact hq
        have := (List.countP_eq_zero.mp h0) q hq2
        simpa using this
  exact ⟨habs, do_deallocate_of_absent s1 p bytes2 alignment2 habs⟩

theorem double_release_detected_witness :
    do_deallocate ⟨4096, 48, [⟨32, 16⟩], [⟨4096, 16, 0⟩, ⟨4112, 16, 16⟩]⟩ 4096 16 1
        = some (⟨4096, 48, [⟨0, 16⟩, ⟨32, 16⟩], [⟨4112, 16, 16⟩]⟩, false)
      ∧ [(⟨4096, 16, 0⟩ : AllocRec), ⟨4112, 16, 16⟩].countP (fun r => decide (r.ptr = 4096)) = 1
      ∧ (∀ r ∈ [(⟨4112, 16, 16⟩ : AllocRec)], r.ptr ≠ 4096)
      ∧ do_deallocate ⟨4096, 48, [⟨0, 16⟩, ⟨32, 16⟩], [⟨4112, 16, 16⟩]⟩ 4096 8 2
          = some (⟨4096, 48, [⟨0, 16⟩, ⟨32, 16⟩], [⟨4112, 16, 16⟩]⟩, true) :=
  ⟨by decide, by decide,
   double_release_detected ⟨4096, 48, [⟨32, 16⟩], [⟨4096, 16, 0⟩, ⟨4112, 16, 16⟩]⟩
     4096 16 1 8 2 ⟨4096, 48, [⟨0, 16⟩, ⟨32, 16⟩], [⟨4112, 16, 16⟩]⟩ (by decide) (by decide)⟩

/-- C8 (counterexample). After `Construct(64)` at base address 4096, the
requests `allocate(0, 1)` and `allocate(8, 1)` both succeed and both return the
pointer 4096. Releasing 4096 twice, with no allocate in between, completes
twice without the unknown-pointer diagnostic, and the second release changes
the free list and the registry. -/
theorem double_release_counterexample :
    do_allocate (Construct 16 4096 64) 0 1
        = some (4096, ⟨4096, 64, [⟨0, 64⟩], [⟨4096, 0, 0⟩]⟩)
      ∧ do_allocate ⟨4096, 64, [⟨0, 64⟩], [⟨4096, 0, 0⟩]⟩ 8 1
        = some (4096, ⟨4096, 64, [⟨8, 56⟩], [⟨4096, 0, 0⟩, ⟨4096, 8, 0⟩]⟩)
      ∧ do_deallocate ⟨4096, 64, [⟨8, 56⟩], [⟨4096, 0, 0⟩, ⟨4096, 8, 0⟩]⟩ 4096 8 1
        = some (⟨4096, 64, [⟨0, 0⟩, ⟨8, 56⟩], [⟨4096, 8, 0⟩]⟩, false)
      ∧ do_deallocate ⟨4096, 64, [⟨0, 0⟩, ⟨8, 56⟩], [⟨4096, 8, 0⟩]⟩ 4096 8 1
        = some (⟨4096, 64, [⟨0, 8⟩, ⟨8, 56⟩], []⟩, false)
      ∧ do_deallocate ⟨4096, 64, [⟨0, 0⟩, ⟨8, 56⟩], [⟨4096, 8, 0⟩]⟩ 4096 8 1
        ≠ some (⟨4096, 64, [⟨0, 0⟩, ⟨8, 56⟩], [⟨4096, 8, 0⟩]⟩, true) := by
  refine ⟨by decide, by decide, by decide, by decide, by decide⟩

/-! ## C9: coalescing -/

/-- C9 (failing input). From a fresh 48-byte arena at base address 4096, three
blocks of 16 bytes with alignment 1 are carved at offsets 0, 16 and 32;
releasing A, then C, then B leaves the two adjacent segments `(0, 32)` and
`(32, 16)` in the free list, and releasing A, then B has no defined result. -/
theorem coalescing_A_C_B_leaves_two_segments :
    run (Construct 16 4096 48)
        [Call.allocate 16 1, Call.allocate 16 1, Call.allocate 16 1]
        = some ⟨4096, 48, [], [⟨4096, 16, 0⟩, ⟨4112, 16, 16⟩, ⟨4128, 16, 32⟩]⟩
      ∧ run (Construct 16 4096 48)
          [Call.allocate 16 1, Call.allocate 16 1, Call.allocate 16 1,
           Call.deallocate 4096 16 1, Call.deallocate 4128 16 1, Call.deallocate 4112 16 1]
          = some ⟨4096, 48, [⟨0, 32⟩, ⟨32, 16⟩], []⟩
      ∧ run (Construct 16 4096 48)
          [Call.allocate 16 1, Call.allocate 16 1, Call.allocate 16 1,
           Call.deallocate 4096 16 1, Call.deallocate 4112 16 1]
          = none := by
  refine ⟨by decide, by decide, by decide⟩

/-! ## C10: reuse after exhaustion -/

/-- C10 (failing input). In a fresh 16-byte arena at base address 4096 the
requests `allocate(1, 1)`, `allocate(2^64 - 1, 16)` and `allocate(1, 1)` all
succeed, at offsets 0, 16 and 15, and leave the free list empty. Releasing the
three blocks in the order second, third, first completes and leaves the free
list `[(0,1),(15,0)]` with an empty registry. In the replay the first two
requests succeed at offsets 0 and 16 and empty the free list, and the third
request throws `std::bad_alloc`, where it returned offset 15 in the original
sequence. -/
theorem replay_runs_out_of_memory :
    run (Construct 16 4096 16)
        [Call.allocate 1 1, Call.allocate (2 ^ 64 - 1) 16, Call.allocate 1 1]
        = some ⟨4096, 16, [], [⟨4096, 1, 0⟩, ⟨4112, 2 ^ 64 - 1, 16⟩, ⟨4111, 1, 15⟩]⟩
      ∧ run (Construct 16 4096 16)
          [Call.allocate 1 1, Call.allocate (2 ^ 64 - 1) 16, Call.allocate 1 1,
           Call.deallocate 4112 (2 ^ 64 - 1) 16, Call.deallocate 4111 1 1,
           Call.deallocate 4096 1 1]
          = some ⟨4096, 16, [⟨0, 1⟩, ⟨15, 0⟩], []⟩
      ∧ run ⟨4096, 16, [⟨0, 1⟩, ⟨15, 0⟩], []⟩
          [Call.allocate 1 1, Call.allocate (2 ^ 64 - 1) 16]
          = some ⟨4096, 16, [], [⟨4096, 1, 0⟩, ⟨4112, 2 ^ 64 - 1, 16⟩]⟩
      ∧ do_allocate ⟨4096, 16, [], [⟨4096, 1, 0⟩, ⟨4112, 2 ^ 64 - 1, 16⟩]⟩ 1 1 = none := by
  refine ⟨by decide, by decide, by decide, by decide⟩

/-! ## The insert position of `insert_and_coalesce` -/

/-- The insert position of `insert_and_coalesce`: when no segment of `pre` has
an offset above `o` and the first segment of `rest`, if any, has, the loop stops
between `pre` and `rest`. -/
theorem insert_position (pre rest : List Segment) (o : Nat)
    (hpre : ∀ t ∈ pre, ¬ o < t.offset) (hrest : ∀ t ∈ rest.head?, o < t.offset) :
    List.takeWhile (fun t => !decide (o < t.offset)) (pre ++ rest) = pre
      ∧ List.dropWhile (fun t => !decide (o < t.offset)) (pre ++ rest) = rest := by
  have hp : ∀ a ∈ pre, (fun t : Segment => !decide (o < t.offset)) a = true := by
    intro a ha
    simp [hpre a ha]
  rw [List.takeWhile_append_of_pos hp, List.dropWhile_append_of_pos hp]
  cases rest with
  | nil => simp
  | cons t tl =>
    have ht : o < t.offset := hrest t (by simp)
    simp [ht]

/-- The second half of `insert_and_coalesce` is defined on every non-empty list. -/
theorem merge_next_cons_ne_none (cur : Segment) (rest : List Segment) :
    merge_next (cur :: rest) ≠ none := by
  cases rest with
  | nil => simp [merge_next]
  | cons nxt tl =>
    by_cases hadj : wadd cur.offset cur.size = nxt.offset
    · simp [merge_next, hadj]
    · simp [merge_next, hadj]

/-- The member `insert_and_coalesce` applies `std::next` to `end()` exactly when
the new segment is inserted at the tail of the list and is merged into its
predecessor: after `inserted = erase(inserted)` the iterator is `end()`, not
the merged segment. -/
theorem insert_and_coalesce_none_iff (fs : List Segment) (seg : Segment) :
    insert_and_coalesce fs seg = none ↔
      fs.dropWhile (fun t => !decide (seg.offset < t.offset)) = []
        ∧ ∃ prev, (fs.takeWhile (fun t => !decide (seg.offset < t.offset))).getLast? = some prev
            ∧ wadd prev.offset prev.size = seg.offset := by
  unfold insert_and_coalesce
  simp only
  generalize List.takeWhile (fun t => !decide (seg.offset < t.offset)) fs = before
  generalize List.dropWhile (fun t => !decide (seg.offset < t.offset)) fs = after
  cases hlast : before.getLast? with
  | none =>
    constructor
    · intro h
      exact absurd h (merge_next_cons_ne_none seg after)
    · rintro ⟨-, prev, hp, -⟩
      cases hp
  | some prev =>
    simp only [Option.some.injEq, exists_eq_left']
    by_cases hadj : wadd prev.offset prev.size = seg.offset
    · rw [if_pos hadj]
      cases after with
      | nil => simp [merge_next, hadj]
      | cons a tl =>
        have hne := merge_next_cons_ne_none a tl
        cases hm : merge_next (a :: tl) with
        | none => exact absurd hm hne
        | some tail => simp
    · rw [if_neg hadj]
      have hne := merge_next_cons_ne_none seg after
      cases hm : merge_next (seg :: after) with
      | none => exact absurd hm hne
      | some tail => simp [hadj]

/-- What `insert_and_coalesce` does between two neighbours when the freed
segment starts where its predecessor `P` ends: the segment is merged into `P`,
and the following-segment check is then made on `N` and the element behind `N`;
`P` and `N` are never merged, whether or not the freed segment ends where `N`
starts. -/
theorem insert_between_adjacent (pre post : List Segment) (P N seg : Segment)
    (hpre : ∀ t ∈ pre, t.offset ≤ seg.offset) (hP : P.offset ≤ seg.offset)
    (hN : seg.offset < N.offset) (hadj : wadd P.offset P.size = seg.offset) :
    ∃ tail, merge_next (N :: post) = some tail
      ∧ insert_and_coalesce (pre ++ P :: N :: post) seg
          = some (pre ++ { offset := P.offset, size := wadd P.size seg.size } :: tail) := by
  have hpos := insert_position (pre ++ [P]) (N :: post) seg.offset
    (by
      intro t ht
      rcases List.mem_append.mp ht with ht | ht
      · have := hpre t ht
        omega
      · rw [List.mem_singleton] at ht
        subst ht
        omega)
    (by
      intro t ht
      simp only [List.head?_cons, Option.mem_def, Option.some.injEq] at ht
      subst ht
      exact hN)
  have hlist : pre ++ P :: N :: post = (pre ++ [P]) ++ N :: post := by simp
  cases hm : merge_next (N :: post) with
  | none => exact absurd hm (merge_next_cons_ne_none N post)
  | some tail =>
    refine ⟨tail, rfl, ?_⟩
    unfold insert_and_coalesce
    simp only
    rw [hlist, hpos.1, hpos.2]
    simp [hadj, hm]

/-- The lookup finds a record appended to a registry in which no record carries
its pointer, and erasing it gives the registry back. -/
theorem find_erase_append_last (p : Nat) (l : List AllocRec) (x : AllocRec)
    (hl : ∀ r ∈ l, r.ptr ≠ p) (hx : x.ptr = p) :
    find_erase p (l ++ [x]) = some (x, l) := by
  induction l with
  | nil => simp [find_erase, hx]
  | cons a tl ih =>
    have ha : a.ptr ≠ p := hl a (List.mem_cons_self _ _)
    have := ih (fun r hr => hl r (List.mem_cons_of_mem _ hr))
    simp [find_erase, ha, this]

/-! ## The ordering invariant -/

/-- A byte covered by a range of the first list and by a range of the second
list is covered at least twice. -/
theorem cover_two (l1 l2 l3 : List Segment) (t u : Segment) (x : Nat)
    (ht : t ∈ l1) (hu : u ∈ l2) (htx : t.covers x) (hux : u.covers x) :
    2 ≤ cover (l1 ++ l2 ++ l3) x := by
  have h1 : 0 < cover l1 x := (cover_pos_iff l1 x).mpr ⟨t, ht, htx⟩
  have h2 : 0 < cover l2 x := (cover_pos_iff l2 x).mpr ⟨u, hu, hux⟩
  simp only [cover_append]
  omega

/-- In a partitioned state no free segment shares a byte with a live allocation. -/
theorem Partitioned.free_live_disjoint (s : State) (G : List Segment) (hinv : Partitioned s G)
    (t : Segment) (ht : t ∈ s.free_segments_) (u : Segment) (hu : u ∈ live s) :
    NoCommonByte t u := by
  intro x hx
  have h2 := cover_two s.free_segments_ (live s) G t u x ht hu hx.1 hx.2
  have h1 := hinv.2.2 x
  split at h1 <;> omega

/-- The second half of `insert_and_coalesce` keeps the order of the list, keeps
every segment non-empty, and gives every segment of the result the offset of a
segment of the argument. -/
theorem merge_next_ordered (l l2 : List Segment) (T : Nat) (hT : T < WORD)
    (hl : ∀ t ∈ l, t.offset + t.size ≤ T) (hE : EndsBeforeNext l)
    (hpos : ∀ t ∈ l, 0 < t.size) (h : merge_next l = some l2) :
    EndsBeforeNext l2 ∧ (∀ t ∈ l2, 0 < t.size)
      ∧ ∀ t ∈ l2, ∃ u ∈ l, t.offset = u.offset := by
  match l, h, hl, hE, hpos with
  | [], h, _, _, _ => cases h
  | [cur], h, _, hE, hpos =>
    cases h
    exact ⟨hE, hpos, fun t ht => ⟨t, ht, rfl⟩⟩
  | cur :: nxt :: rest, h, hl, hE, hpos =>
    obtain ⟨o1, s1⟩ := cur
    obtain ⟨o2, s2⟩ := nxt
    have hc : o1 + s1 ≤ T := hl ⟨o1, s1⟩ (by simp)
    have hn : o2 + s2 ≤ T := hl ⟨o2, s2⟩ (by simp)
    unfold merge_next at h
    simp only [wadd_eq o1 s1 (by omega)] at h
    by_cases hadj : o1 + s1 = o2
    · rw [if_pos hadj] at h
      simp only [wadd_eq s1 s2 (by omega), Option.some.injEq] at h
      subst h
      unfold EndsBeforeNext at hE ⊢
      obtain ⟨-, hE2⟩ := List.pairwise_cons.mp hE
      obtain ⟨hnr, hEr⟩ := List.pairwise_cons.mp hE2
      refine ⟨List.pairwise_cons.mpr ⟨?_, hEr⟩, ?_, ?_⟩
      · intro b hb
        have := hnr b hb
        show o1 + (s1 + s2) ≤ b.offset
        simp only at this
        omega
      · intro t ht
        rcases List.mem_cons.mp ht with rfl | ht
        · have := hpos ⟨o1, s1⟩ (by simp)
          show 0 < s1 + s2
          simp only at this
          omega
        · exact hpos t (by simp [ht])
      · intro t ht
        rcases List.mem_cons.mp ht with rfl | ht
        · exact ⟨⟨o1, s1⟩, by simp, rfl⟩
        · exact ⟨t, by simp [ht], rfl⟩
    · rw [if_neg hadj] at h
      cases h
      exact ⟨hE, hpos, fun t ht => ⟨t, ht, rfl⟩⟩

/-- The member `insert_and_coalesce`, when it returns, keeps the free list
ordered and its segments non-empty, provided the inserted segment is non-empty
and shares no byte with a segment of the list. -/
theorem insert_and_coalesce_ordered (fs : List Segment) (seg : Segment) (fs2 : List Segment)
    (T : Nat) (hT : T < WORD) (hfs : ∀ t ∈ fs, t.offset + t.size ≤ T)
    (hseg : seg.offset + seg.size ≤ T) (hE : EndsBeforeNext fs)
    (hpos : ∀ t ∈ fs, 0 < t.size) (hsz : 0 < seg.size)
    (hdisj : ∀ t ∈ fs, NoCommonByte t seg)
    (h : insert_and_coalesce fs seg = some fs2) :
    EndsBeforeNext fs2 ∧ ∀ t ∈ fs2, 0 < t.size := by
  unfold insert_and_coalesce at h
  have hsplit := List.takeWhile_append_dropWhile (fun t => !decide (seg.offset < t.offset)) fs
  have hbef : ∀ t ∈ List.takeWhile (fun t => !decide (seg.offset < t.offset)) fs,
      t.offset ≤ seg.offset := by
    intro t ht
    have := List.mem_takeWhile_imp ht
    simpa using this
  have hhead := List.head?_dropWhile_not (fun t => !decide (seg.offset < t.offset)) fs
  generalize List.takeWhile (fun t => !decide (seg.offset < t.offset)) fs = before
    at h hsplit hbef
  generalize List.dropWhile (fun t => !decide (seg.offset < t.offset)) fs = after
    at h hsplit hhead
  subst hsplit
  unfold EndsBeforeNext at hE
  obtain ⟨hEb, hEa, hba⟩ := List.pairwise_append.mp hE
  have hbefore : ∀ t ∈ before, t.offset + t.size ≤ T := fun t ht => hfs t (by simp [ht])
  have hafter : ∀ t ∈ after, t.offset + t.size ≤ T := fun t ht => hfs t (by simp [ht])
  have hposb : ∀ t ∈ before, 0 < t.size := fun t ht => hpos t (by simp [ht])
  have hposa : ∀ t ∈ after, 0 < t.size := fun t ht => hpos t (by simp [ht])
  -- every segment of `after` starts above the offset of `seg`
  have hgt : ∀ u ∈ after, seg.offset < u.offset := by
    cases after with
    | nil => intro u hu; cases hu
    | cons u0 tl =>
      have h0 : seg.offset < u0.offset := by
        simp only [List.head?_cons] at hhead
        simpa using hhead
      intro u hu
      rcases List.mem_cons.mp hu with rfl | hu
      · exact h0
      · have h1 := (List.pairwise_cons.mp hEa).1 u hu
        have h2 := hposa u0 (List.mem_cons_self _ _)
        omega
  have hbs : ∀ t ∈ before, t.offset + t.size ≤ seg.offset := by
    intro t ht
    by_contra hc
    have h1 := hbef t ht
    exact hdisj t (by simp [ht]) seg.offset ⟨⟨h1, by omega⟩, ⟨Nat.le_refl _, by omega⟩⟩
  have hsa : ∀ u ∈ after, seg.offset + seg.size ≤ u.offset := by
    intro u hu
    by_contra hc
    have h1 := hgt u hu
    have h2 := hposa u hu
    exact hdisj u (by simp [hu]) u.offset ⟨⟨Nat.le_refl _, by omega⟩, ⟨by omega, by omega⟩⟩
  have hsegl : ∀ t ∈ seg :: after, t.offset + t.size ≤ T := by
    intro t ht
    rcases List.mem_cons.mp ht with rfl | ht
    · exact hseg
    · exact hafter t ht
  have hEsa : EndsBeforeNext (seg :: after) := List.pairwise_cons.mpr ⟨hsa, hEa⟩
  have hpossa : ∀ t ∈ seg :: after, 0 < t.size := by
    intro t ht
    rcases List.mem_cons.mp ht with rfl | ht
    · exact hsz
    · exact hposa t ht
  simp only at h
  cases hlast : before.getLast? with
  | none =>
    rw [hlast] at h
    obtain ⟨h1, h2, -⟩ := merge_next_ordered _ _ T hT hsegl hEsa hpossa h
    exact ⟨h1, h2⟩
  | some prev =>
    rw [hlast] at h
    have hdl : before.dropLast ++ [prev] = before :=
      List.dropLast_append_getLast? prev (by simp [hlast])
    have hprevm : prev ∈ before := by rw [← hdl]; simp
    have hprev : prev.offset + prev.size ≤ T := hbefore prev hprevm
    have hdropm : ∀ t ∈ before.dropLast, t ∈ before := fun t ht => by rw [← hdl]; simp [ht]
    rw [← hdl] at hEb
    obtain ⟨hEd, -, hdp⟩ := List.pairwise_append.mp hEb
    have hdprev : ∀ a ∈ before.dropLast, a.offset + a.size ≤ prev.offset :=
      fun a ha => hdp a ha prev (by simp)
    simp only [wadd_eq prev.offset prev.size (by omega)] at h
    by_cases hadj : prev.offset + prev.size = seg.offset
    · rw [if_pos hadj] at h
      cases hm : merge_next after with
      | none => simp [hm] at h
      | some tail =>
        simp only [hm, Option.some.injEq] at h
        subst h
        obtain ⟨hEt, hpost, hofft⟩ := merge_next_ordered _ _ T hT hafter hEa hposa hm
        rw [wadd_eq prev.size seg.size (by omega)]
        constructor
        · unfold EndsBeforeNext
          refine List.pairwise_append.mpr ⟨hEd, List.pairwise_cons.mpr ⟨?_, hEt⟩, ?_⟩
          · intro b hb
            obtain ⟨u, hu, hbu⟩ := hofft b hb
            have := hsa u hu
            show prev.offset + (prev.size + seg.size) ≤ b.offset
            omega
          · intro a ha b hb
            rcases List.mem_cons.mp hb with rfl | hb
            · exact hdprev a ha
            · obtain ⟨u, hu, hbu⟩ := hofft b hb
              have := hba a (hdropm a ha) u hu
              omega
        · intro t ht
          rcases List.mem_append.mp ht with ht | ht
          · exact hposb t (hdropm t ht)
          · rcases List.mem_cons.mp ht with rfl | ht
            · show 0 < prev.size + seg.size
              omega
            · exact hpost t ht
    · rw [if_neg hadj] at h
      cases hm : merge_next (seg :: after) with
      | none => simp [hm] at h
      | some tail =>
        simp only [hm, Option.some.injEq] at h
        subst h
        obtain ⟨hEt, hpost, hofft⟩ := merge_next_ordered _ _ T hT hsegl hEsa hpossa hm
        rw [hdl] at hEb
        constructor
        · unfold EndsBeforeNext
          refine List.pairwise_append.mpr ⟨hEb, hEt, ?_⟩
          intro a ha b hb
          obtain ⟨u, hu, hbu⟩ := hofft b hb
          rcases List.mem_cons.mp hu with rfl | hu
          · have := hbs a ha
            omega
          · have := hba a ha u hu
            omega
        · intro t ht
          rcases List.mem_append.mp ht with ht | ht
          · exact hposb t ht
          · exact hpost t ht

/-- A successful `do_allocate` with a request in range for at least one byte
keeps the free list ordered. -/
theorem do_allocate_ordered (s : State) (G : List Segment) (bytes k p : Nat) (s2 : State)
    (hk : k < 64) (hb : bytes + 2 ^ k ≤ WORD) (hbytes : 1 ≤ bytes)
    (hinv : Partitioned s G) (hord : Ordered s)
    (h : do_allocate s bytes (2 ^ k) = some (p, s2)) : Ordered s2 := by
  obtain ⟨hT, hbound, -⟩ := hinv
  obtain ⟨hE, hposf, hposr⟩ := hord
  unfold do_allocate at h
  cases hs : scan s.base_addr_ bytes (2 ^ k) s.free_segments_ with
  | none => simp [hs] at h
  | some c =>
    simp only [hs, Option.some.injEq, Prod.mk.injEq] at h
    obtain ⟨-, hs2⟩ := h
    subst hs2
    obtain ⟨pre, seg, post, e, -, hfit, -, -, hrec, hfree⟩ := scan_some _ _ _ _ c hs
    obtain ⟨o, sz⟩ := seg
    have hpl := padding_lt s.base_addr_ o k hk
    have hsegb : o + sz ≤ s.total_size_ := hbound ⟨o, sz⟩ (by simp [e])
    have hu : used_total s.base_addr_ bytes (2 ^ k) ⟨o, sz⟩
        = padding s.base_addr_ o (2 ^ k) + bytes :=
      wadd_eq (padding s.base_addr_ o (2 ^ k)) bytes (by omega)
    have hle : padding s.base_addr_ o (2 ^ k) + bytes ≤ sz := by
      unfold fits at hfit
      rw [hu] at hfit
      simpa using hfit
    rw [hu] at hfree
    simp only [wadd_eq o (padding s.base_addr_ o (2 ^ k) + bytes) (by omega),
      wsub_eq sz (padding s.base_addr_ o (2 ^ k) + bytes) (by omega) hle] at hfree
    generalize padding s.base_addr_ o (2 ^ k) = pad at *
    unfold EndsBeforeNext at hE
    rw [e] at hE hposf
    obtain ⟨hEp, hEsp, hcross⟩ := List.pairwise_append.mp hE
    obtain ⟨hsp, hEpost⟩ := List.pairwise_cons.mp hEsp
    refine ⟨?_, ?_, ?_⟩
    · show EndsBeforeNext c.free
      rw [hfree]
      unfold EndsBeforeNext
      by_cases hx : pad + bytes = sz
      · rw [if_pos hx]
        exact List.pairwise_append.mpr ⟨hEp, hEpost,
          fun a ha b hb => hcross a ha b (List.mem_cons_of_mem _ hb)⟩
      · rw [if_neg hx]
        refine List.pairwise_append.mpr ⟨hEp, List.pairwise_cons.mpr ⟨?_, hEpost⟩, ?_⟩
        · intro b hb
          have := hsp b hb
          show o + (pad + bytes) + (sz - (pad + bytes)) ≤ b.offset
          simp only at this
          omega
        · intro a ha b hb
          rcases List.mem_cons.mp hb with rfl | hb
          · have := hcross a ha ⟨o, sz⟩ (List.mem_cons_self _ _)
            show a.offset + a.size ≤ o + (pad + bytes)
            simp only at this
            omega
          · exact hcross a ha b (List.mem_cons_of_mem _ hb)
    · show ∀ t ∈ c.free, 0 < t.size
      rw [hfree]
      intro t ht
      by_cases hx : pad + bytes = sz
      · rw [if_pos hx] at ht
        rcases List.mem_append.mp ht with ht | ht
        · exact hposf t (by simp [ht])
        · exact hposf t (by simp [ht])
      · rw [if_neg hx] at ht
        rcases List.mem_append.mp ht with ht | ht
        · exact hposf t (by simp [ht])
        · rcases List.mem_cons.mp ht with rfl | ht
          · show 0 < sz - (pad + bytes)
            omega
          · exact hposf t (by simp [ht])
    · show ∀ r ∈ s.allocated_ ++ [c.record], 0 < r.size
      intro r hr
      rcases List.mem_append.mp hr with hr | hr
      · exact hposr r hr
      · rw [List.mem_singleton] at hr
        rw [hr, hrec]
        exact hbytes

/-- A `do_deallocate` that returns keeps the free list ordered. -/
theorem do_deallocate_ordered (s : State) (G : List Segment) (p bytes alignment : Nat)
    (s2 : State) (flag : Bool) (hinv : Partitioned s G) (hord : Ordered s)
    (h : do_deallocate s p bytes alignment = some (s2, flag)) : Ordered s2 := by
  obtain ⟨hE, hposf, hposr⟩ := hord
  unfold do_deallocate at h
  cases hf : find_erase p s.allocated_ with
  | none =>
    simp only [hf, Option.some.injEq, Prod.mk.injEq] at h
    obtain ⟨rfl, -⟩ := h
    exact ⟨hE, hposf, hposr⟩
  | some hit =>
    obtain ⟨r, rest⟩ := hit
    simp only [hf] at h
    obtain ⟨l1, l2, e, e2, -, -⟩ := find_erase_some p _ r rest hf
    have hrmem : r ∈ s.allocated_ := by rw [e]; simp
    have hrlive : r.range ∈ live s := List.mem_map_of_mem _ hrmem
    have hfs : ∀ t ∈ s.free_segments_, t.offset + t.size ≤ s.total_size_ :=
      fun t ht => hinv.2.1 t (by simp [ht])
    have hr : r.range.offset + r.range.size ≤ s.total_size_ :=
      hinv.2.1 r.range (by simp [hrlive])
    have hdisj : ∀ t ∈ s.free_segments_, NoCommonByte t r.range :=
      fun t ht => Partitioned.free_live_disjoint s G hinv t ht r.range hrlive
    cases hi : insert_and_coalesce s.free_segments_ ⟨r.offset, r.size⟩ with
    | none => simp [hi] at h
    | some fs =>
      simp only [hi, Option.some.injEq, Prod.mk.injEq] at h
      obtain ⟨rfl, -⟩ := h
      obtain ⟨h1, h2⟩ := insert_and_coalesce_ordered _ _ fs s.total_size_ hinv.1 hfs hr hE
        hposf (hposr r hrmem) hdisj hi
      refine ⟨h1, h2, ?_⟩
      intro q hq
      apply hposr q
      rw [e]
      rw [e2] at hq
      rcases List.mem_append.mp hq with hq | hq
      · simp [hq]
      · simp [hq]

/-- The ordering invariant along a sequence of calls that are in range and
allocate at least one byte each, starting from a partitioned state. -/
theorem run_ordered (calls : List Call) (s : State) (G : List Segment) (s2 : State)
    (hwf : ∀ c ∈ calls, c.positive) (hinv : Partitioned s G) (hord : Ordered s)
    (h : run s calls = some s2) : Ordered s2 := by
  induction calls generalizing s G with
  | nil =>
    simp only [run, Option.some.injEq] at h
    subst h
    exact hord
  | cons c cs ih =>
    unfold run at h
    cases hst : step s c with
    | none => simp [hst] at h
    | some s1 =>
      simp only [hst] at h
      have hrest : ∀ c2 ∈ cs, c2.positive := fun c2 hc2 => hwf c2 (List.mem_cons_of_mem _ hc2)
      have hc : c.positive := hwf c (List.mem_cons_self _ _)
      have hboth : Partitioned s1 (G ++ call_gap s c) ∧ Ordered s1 := by
        cases c with
        | allocate bytes alignment =>
          obtain ⟨hbytes, k, hk, rfl, hb⟩ := hc
          unfold step at hst
          cases hd : do_allocate s bytes (2 ^ k) with
          | none =>
            simp only [hd, Option.some.injEq] at hst
            subst hst
            have : scan s.base_addr_ bytes (2 ^ k) s.free_segments_ = none := by
              unfold do_allocate at hd
              cases hs : scan s.base_addr_ bytes (2 ^ k) s.free_segments_ with
              | none => rfl
              | some c => simp [hs] at hd
            exact ⟨by simpa [call_gap, this] using hinv, hord⟩
          | some res =>
            obtain ⟨p, s3⟩ := res
            simp only [hd, Option.some.injEq] at hst
            subst hst
            exact ⟨do_allocate_partitioned s G bytes k p s3 hk hb hinv hd,
              do_allocate_ordered s G bytes k p s3 hk hb hbytes hinv hord hd⟩
        | deallocate p bytes alignment =>
          unfold step at hst
          cases hd : do_deallocate s p bytes alignment with
          | none => simp [hd] at hst
          | some res =>
            obtain ⟨s3, flag⟩ := res
            simp only [hd, Option.some.injEq] at hst
            subst hst
            exact ⟨by simpa [call_gap] using
                do_deallocate_partitioned s G p bytes alignment s3 flag hinv hd,
              do_deallocate_ordered s G p bytes alignment s3 flag hinv hord hd⟩
      exact ih s1 (G ++ call_gap s c) hrest hboth.1 hboth.2 h

/-- An arena of capacity 0 never changes under calls that are in range and
allocate at least one byte each. -/
theorem run_zero_capacity (calls : List Call) (base : Nat) (s2 : State)
    (hwf : ∀ c ∈ calls, c.positive)
    (h : run ⟨base, 0, [⟨0, 0⟩], []⟩ calls = some s2) :
    s2 = ⟨base, 0, [⟨0, 0⟩], []⟩ := by
  induction calls with
  | nil =>
    simp only [run, Option.some.injEq] at h
    exact h.symm
  | cons c cs ih =>
    have hrest : ∀ c2 ∈ cs, c2.positive := fun c2 hc2 => hwf c2 (List.mem_cons_of_mem _ hc2)
    have hc : c.positive := hwf c (List.mem_cons_self _ _)
    have hstep : step ⟨base, 0, [⟨0, 0⟩], []⟩ c = some ⟨base, 0, [⟨0, 0⟩], []⟩ := by
      cases c with
      | allocate bytes alignment =>
        obtain ⟨hbytes, k, hk, rfl, hb⟩ := hc
        have hpl := padding_lt base 0 k hk
        have hu : used_total base bytes (2 ^ k) ⟨0, 0⟩ = padding base 0 (2 ^ k) + bytes :=
          wadd_eq (padding base 0 (2 ^ k)) bytes (by omega)
        have hfit : fits base bytes (2 ^ k) ⟨0, 0⟩ = false := by
          unfold fits
          rw [hu]
          simp only [decide_eq_false_iff_not]
          show ¬ (padding base 0 (2 ^ k) + bytes ≤ 0)
          omega
        simp [step, do_allocate, scan, hfit]
      | deallocate p bytes alignment =>
        simp [step, do_deallocate, find_erase]
    unfold run at h
    rw [hstep] at h
    exact ih hrest h

/-- The shape of the free list after calls that are in range and allocate at
least one byte each: strictly ascending offsets, every segment ending at or
before the offset of every later one, pairwise disjoint ranges. -/
theorem run_free_list_shape (max_align base total_bytes : Nat) (calls : List Call) (s : State)
    (hwf : ∀ c ∈ calls, c.positive)
    (h : run (Construct max_align base total_bytes) calls = some s) :
    StrictlyAscending s.free_segments_ ∧ EndsBeforeNext s.free_segments_
      ∧ s.free_segments_.Pairwise NoCommonByte := by
  by_cases hz : align_up total_bytes max_align = 0
  · have hC : Construct max_align base total_bytes = ⟨base % WORD, 0, [⟨0, 0⟩], []⟩ := by
      simp [Construct, hz]
    rw [hC] at h
    have := run_zero_capacity calls _ s hwf h
    subst this
    unfold StrictlyAscending EndsBeforeNext
    simp
  · have hord0 : Ordered (Construct max_align base total_bytes) := by
      refine ⟨?_, ?_, ?_⟩
      · unfold EndsBeforeNext
        simp [Construct]
      · intro t ht
        simp only [Construct, List.mem_singleton] at ht
        subst ht
        exact Nat.pos_of_ne_zero hz
      · intro r hr
        simp [Construct] at hr
    obtain ⟨hE, hpos, -⟩ := run_ordered calls _ [] s hwf
      (Construct_partitioned max_align base total_bytes) hord0 h
    refine ⟨?_, hE, ?_⟩
    · unfold StrictlyAscending
      unfold EndsBeforeNext at hE
      have hE2 : s.free_segments_.Pairwise
          (fun a b => 0 < a.size ∧ a.offset + a.size ≤ b.offset) := by
        rw [List.pairwise_iff_forall_sublist] at hE ⊢
        intro a b hab
        exact ⟨hpos a (hab.subset (by simp)), hE hab⟩
      exact hE2.imp (fun h => by omega)
    · unfold EndsBeforeNext at hE
      refine hE.imp ?_
      intro a b hab x hx
      unfold Segment.covers at hx
      omega

/-! ## Capacity, bounds and rounding -/

/-- No call changes the base address or the capacity. -/
theorem run_total_size (calls : List Call) (s s2 : State) (h : run s calls = some s2) :
    s2.total_size_ = s.total_size_ ∧ s2.base_addr_ = s.base_addr_ := by
  induction calls generalizing s with
  | nil =>
    simp only [run, Option.some.injEq] at h
    subst h
    exact ⟨rfl, rfl⟩
  | cons c cs ih =>
    unfold run at h
    cases hst : step s c with
    | none => simp [hst] at h
    | some s1 =>
      simp only [hst] at h
      have h1 : s1.total_size_ = s.total_size_ ∧ s1.base_addr_ = s.base_addr_ := by
        cases c with
        | allocate bytes alignment =>
          unfold step at hst
          cases hd : do_allocate s bytes alignment with
          | none =>
            simp only [hd, Option.some.injEq] at hst
            subst hst
            exact ⟨rfl, rfl⟩
          | some res =>
            obtain ⟨p, s3⟩ := res
            simp only [hd, Option.some.injEq] at hst
            subst hst
            unfold do_allocate at hd
            cases hs : scan s.base_addr_ bytes alignment s.free_segments_ with
            | none => simp [hs] at hd
            | some c =>
              simp only [hs, Option.some.injEq, Prod.mk.injEq] at hd
              obtain ⟨-, rfl⟩ := hd
              exact ⟨rfl, rfl⟩
        | deallocate p bytes alignment =>
          unfold step at hst
          cases hd : do_deallocate s p bytes alignment with
          | none => simp [hd] at hst
          | some res =>
            obtain ⟨s3, flag⟩ := res
            simp only [hd, Option.some.injEq] at hst
            subst hst
            unfold do_deallocate at hd
            cases hf : find_erase p s.allocated_ with
            | none =>
              simp only [hf, Option.some.injEq, Prod.mk.injEq] at hd
              obtain ⟨rfl, -⟩ := hd
              exact ⟨rfl, rfl⟩
            | some hit =>
              obtain ⟨r, rest⟩ := hit
              simp only [hf] at hd
              cases hi : insert_and_coalesce s.free_segments_ ⟨r.offset, r.size⟩ with
              | none => simp [hi] at hd
              | some fs =>
                simp only [hi, Option.some.injEq, Prod.mk.injEq] at hd
                obtain ⟨rfl, -⟩ := hd
                exact ⟨rfl, rfl⟩
      obtain ⟨h2, h3⟩ := ih s1 h
      exact ⟨h2.trans h1.1, h3.trans h1.2⟩

/-- Bounds for calls in range: every free segment and every live allocation
ends at or below `total_size_`, which is the value set by the constructor. -/
theorem run_bounds (max_align base total_bytes : Nat) (calls : List Call) (s : State)
    (hwf : ∀ c ∈ calls, c.in_range)
    (h : run (Construct max_align base total_bytes) calls = some s) :
    s.total_size_ = align_up total_bytes max_align
      ∧ (∀ seg ∈ s.free_segments_, seg.offset + seg.size ≤ s.total_size_)
      ∧ ∀ r ∈ s.allocated_, r.offset + r.size ≤ s.total_size_ := by
  have hp := run_partitioned calls _ [] s hwf (Construct_partitioned max_align base total_bytes) h
  refine ⟨(run_total_size calls _ s h).1, ?_, ?_⟩
  · intro seg hseg
    exact hp.2.1 seg (by simp [hseg])
  · intro r hr
    have : r.range ∈ live s := List.mem_map_of_mem _ hr
    exact hp.2.1 r.range (by simp [this])

/-- Rounding up to a multiple of `a`: the value `a * ((n + (a - 1)) / a)` is the
smallest multiple of `a` that is at least `n`. -/
theorem round_up_smallest (n a : Nat) (hpos : 0 < a) :
    a ∣ a * ((n + (a - 1)) / a) ∧ n ≤ a * ((n + (a - 1)) / a)
      ∧ ∀ m, a ∣ m → n ≤ m → a * ((n + (a - 1)) / a) ≤ m := by
  have hdm := Nat.div_add_mod (n + (a - 1)) a
  have hr := Nat.mod_lt (n + (a - 1)) hpos
  refine ⟨Nat.dvd_mul_right _ _, by omega, ?_⟩
  rintro m ⟨q, rfl⟩ hnm
  apply Nat.mul_le_mul_left
  have hlt : (n + (a - 1)) / a < q + 1 := by
    rw [Nat.div_lt_iff_lt_mul hpos]
    have e : (q + 1) * a = a * q + a := by
      rw [Nat.add_mul, Nat.one_mul, Nat.mul_comm]
    rw [e]
    omega
  omega

/-- The value of `align_up` when the sum does not wrap: for a power-of-two
alignment with `n + 2 ^ k ≤ 2 ^ 64` it is the smallest multiple of the
alignment that is at least `n`. -/
theorem align_up_eq (n k : Nat) (hk : k < 64) (hn : n + 2 ^ k ≤ WORD) :
    2 ^ k ∣ align_up n (2 ^ k) ∧ n ≤ align_up n (2 ^ k)
      ∧ ∀ m, 2 ^ k ∣ m → n ≤ m → align_up n (2 ^ k) ≤ m := by
  have hal : 2 ^ k < WORD := pow_lt_WORD k hk
  have hpos : 0 < 2 ^ k := Nat.two_pow_pos k
  have h1 : wsub (2 ^ k) 1 = 2 ^ k - 1 := wsub_eq (2 ^ k) 1 hal (by omega)
  have h0 : wsub (wadd n (2 ^ k)) 1 = n + (2 ^ k - 1) := by
    by_cases hlt : n + 2 ^ k < WORD
    · rw [wadd_eq n (2 ^ k) hlt, wsub_eq (n + 2 ^ k) 1 hlt (by omega)]
      omega
    · have he : n + 2 ^ k = WORD := by omega
      unfold wadd wsub
      rw [he, Nat.mod_self]
      have : (1 : Nat) % WORD = 1 := by decide
      rw [this, Nat.zero_mod, Nat.zero_add, Nat.mod_eq_of_lt (by have := WORD_pos; omega)]
      omega
  have h2 : wnot (2 ^ k - 1) = 2 ^ 64 - 1 - (2 ^ k - 1) := by
    unfold wnot
    rw [Nat.mod_eq_of_lt (by omega : 2 ^ k - 1 < WORD)]
    rfl
  have hy : n + (2 ^ k - 1) < 2 ^ 64 := by
    rw [← WORD_eq]
    omega
  have hval : align_up n (2 ^ k) = 2 ^ k * ((n + (2 ^ k - 1)) / 2 ^ k) := by
    unfold align_up wand
    rw [h1, h0, h2]
    have hm : (2 ^ 64 - 1 - (2 ^ k - 1)) % WORD = 2 ^ 64 - 1 - (2 ^ k - 1) :=
      Nat.mod_eq_of_lt (by rw [WORD_eq]; omega)
    rw [hm, Nat.mod_eq_of_lt (by rw [WORD_eq]; exact hy), land_mask _ k hy (Nat.le_of_lt hk)]
  rw [hval]
  exact round_up_smallest n (2 ^ k) hpos

/-- A request in range that is larger than every free segment throws
`std::bad_alloc`. -/
theorem do_allocate_too_large (s : State) (bytes k : Nat) (hk : k < 64)
    (hb : bytes + 2 ^ k ≤ WORD) (hsz : ∀ t ∈ s.free_segments_, t.size < bytes) :
    do_allocate s bytes (2 ^ k) = none := by
  have hnone : scan s.base_addr_ bytes (2 ^ k) s.free_segments_ = none := by
    rw [scan_none]
    intro t ht
    have hpl := padding_lt s.base_addr_ t.offset k hk
    have hu : used_total s.base_addr_ bytes (2 ^ k) t
        = padding s.base_addr_ t.offset (2 ^ k) + bytes :=
      wadd_eq (padding s.base_addr_ t.offset (2 ^ k)) bytes (by omega)
    unfold fits
    rw [hu]
    have := hsz t ht
    simp only [decide_eq_false_iff_not]
    omega
  unfold do_allocate
  rw [hnone]

/-! ## Repeated allocation -/

theorem total_bytes_of_cons (a : Segment) (l : List Segment) :
    total_bytes_of (a :: l) = a.size + total_bytes_of l := by
  simp [total_bytes_of]

theorem total_bytes_of_append (l1 l2 : List Segment) :
    total_bytes_of (l1 ++ l2) = total_bytes_of l1 + total_bytes_of l2 := by
  simp [total_bytes_of]

/-- An ordered list of segments below `T` describes at most `T - lo` bytes when
all its offsets are at least `lo`. -/
theorem ordered_total_le (l : List Segment) (T : Nat) (hE : EndsBeforeNext l)
    (hb : ∀ t ∈ l, t.offset + t.size ≤ T) :
    ∀ lo, lo ≤ T → (∀ t ∈ l, lo ≤ t.offset) → total_bytes_of l + lo ≤ T := by
  induction l with
  | nil =>
    intro lo hlo _
    simpa [total_bytes_of] using hlo
  | cons a rest ih =>
    intro lo hlo hge
    unfold EndsBeforeNext at hE
    obtain ⟨ha, hEr⟩ := List.pairwise_cons.mp hE
    have hab := hb a (List.mem_cons_self _ _)
    have h1 := ih hEr (fun t ht => hb t (List.mem_cons_of_mem _ ht)) (a.offset + a.size) hab ha
    have h2 := hge a (List.mem_cons_self _ _)
    rw [total_bytes_of_cons]
    omega

/-- A successful `do_allocate` with a request in range takes at least `bytes`
bytes out of the free list and keeps every free segment below `2 ^ 64`. -/
theorem do_allocate_consumes (s : State) (bytes k p : Nat) (s2 : State) (hk : k < 64)
    (hb : bytes + 2 ^ k ≤ WORD) (hword : ∀ t ∈ s.free_segments_, t.offset + t.size < WORD)
    (h : do_allocate s bytes (2 ^ k) = some (p, s2)) :
    total_bytes_of s2.free_segments_ + bytes ≤ total_bytes_of s.free_segments_
      ∧ ∀ t ∈ s2.free_segments_, t.offset + t.size < WORD := by
  unfold do_allocate at h
  cases hs : scan s.base_addr_ bytes (2 ^ k) s.free_segments_ with
  | none => simp [hs] at h
  | some c =>
    simp only [hs, Option.some.injEq, Prod.mk.injEq] at h
    obtain ⟨-, hs2⟩ := h
    subst hs2
    obtain ⟨pre, seg, post, e, -, hfit, -, -, -, hfree⟩ := scan_some _ _ _ _ c hs
    obtain ⟨o, sz⟩ := seg
    have hpl := padding_lt s.base_addr_ o k hk
    have hsegb : o + sz < WORD := hword ⟨o, sz⟩ (by simp [e])
    have hu : used_total s.base_addr_ bytes (2 ^ k) ⟨o, sz⟩
        = padding s.base_addr_ o (2 ^ k) + bytes :=
      wadd_eq (padding s.base_addr_ o (2 ^ k)) bytes (by omega)
    have hle : padding s.base_addr_ o (2 ^ k) + bytes ≤ sz := by
      unfold fits at hfit
      rw [hu] at hfit
      simpa using hfit
    rw [hu] at hfree
    simp only [wadd_eq o (padding s.base_addr_ o (2 ^ k) + bytes) (by omega),
      wsub_eq sz (padding s.base_addr_ o (2 ^ k) + bytes) (by omega) hle] at hfree
    generalize padding s.base_addr_ o (2 ^ k) = pad at *
    show total_bytes_of c.free + bytes ≤ total_bytes_of s.free_segments_
      ∧ ∀ t ∈ c.free, t.offset + t.size < WORD
    rw [hfree, e]
    by_cases hx : pad + bytes = sz
    · rw [if_pos hx]
      constructor
      · simp only [total_bytes_of_append, total_bytes_of_cons]
        omega
      · intro t ht
        apply hword t
        rw [e]
        rcases List.mem_append.mp ht with ht | ht
        · simp [ht]
        · simp [ht]
    · rw [if_neg hx]
      constructor
      · simp only [total_bytes_of_append, total_bytes_of_cons]
        omega
      · intro t ht
        rcases List.mem_append.mp ht with ht | ht
        · exact hword t (by rw [e]; simp [ht])
        · rcases List.mem_cons.mp ht with rfl | ht
          · show o + (pad + bytes) + (sz - (pad + bytes)) < WORD
            omega
          · exact hword t (by rw [e]; simp [ht])

/-- Every run of `n` successful allocations of `bytes` bytes takes at least
`n * bytes` bytes out of the free list. -/
theorem repeat_allocate_bound (n : Nat) (s : State) (bytes k : Nat) (s2 : State) (hk : k < 64)
    (hb : bytes + 2 ^ k ≤ WORD) (hword : ∀ t ∈ s.free_segments_, t.offset + t.size < WORD)
    (h : repeat_allocate s bytes (2 ^ k) n = some s2) :
    n * bytes + total_bytes_of s2.free_segments_ ≤ total_bytes_of s.free_segments_ := by
  induction n generalizing s with
  | zero =>
    simp only [repeat_allocate, Option.some.injEq] at h
    subst h
    omega
  | succ m ih =>
    unfold repeat_allocate at h
    cases hd : do_allocate s bytes (2 ^ k) with
    | none => simp [hd] at h
    | some res =>
      obtain ⟨p, s1⟩ := res
      simp only [hd] at h
      obtain ⟨h1, h2⟩ := do_allocate_consumes s bytes k p s1 hk hb hword hd
      have h3 := ih s1 h2 h
      rw [Nat.succ_mul]
      omega

/-- Repeating a request in range for at least one byte runs into
`std::bad_alloc` after finitely many successes, at most as many as the free list
has room for. -/
theorem repeat_allocate_fails (bytes k : Nat) (hk : k < 64) (hb : bytes + 2 ^ k ≤ WORD)
    (hbytes : 1 ≤ bytes) :
    ∀ (m : Nat) (s : State), total_bytes_of s.free_segments_ ≤ m →
      (∀ t ∈ s.free_segments_, t.offset + t.size < WORD) →
      ∃ n s2, repeat_allocate s bytes (2 ^ k) n = some s2
        ∧ do_allocate s2 bytes (2 ^ k) = none
        ∧ n * bytes ≤ total_bytes_of s.free_segments_ := by
  intro m
  induction m with
  | zero =>
    intro s hm hword
    cases hd : do_allocate s bytes (2 ^ k) with
    | none => exact ⟨0, s, rfl, hd, by omega⟩
    | some res =>
      obtain ⟨p, s1⟩ := res
      have := (do_allocate_consumes s bytes k p s1 hk hb hword hd).1
      omega
  | succ m ih =>
    intro s hm hword
    cases hd : do_allocate s bytes (2 ^ k) with
    | none => exact ⟨0, s, rfl, hd, by omega⟩
    | some res =>
      obtain ⟨p, s1⟩ := res
      obtain ⟨h1, h2⟩ := do_allocate_consumes s bytes k p s1 hk hb hword hd
      obtain ⟨n, s2, hr, hf, hn⟩ := ih s1 (by omega) h2
      refine ⟨n + 1, s2, ?_, hf, ?_⟩
      · unfold repeat_allocate
        simp only [hd]
        exact hr
      · rw [Nat.succ_mul]
        omega

/-- The out-of-memory boundary in an arena reached by calls that are in range
and allocate at least one byte each: a request in range for `bytes ≥ 1` bytes,
repeated with no release in between, throws `std::bad_alloc` after at most
`total_size_ / bytes` successful allocations. -/
theorem out_of_memory_within_bound (max_align base total_bytes : Nat) (calls : List Call)
    (s : State) (bytes k : Nat) (hwf : ∀ c ∈ calls, c.positive)
    (h : run (Construct max_align base total_bytes) calls = some s)
    (hk : k < 64) (hb : bytes + 2 ^ k ≤ WORD) (hbytes : 1 ≤ bytes) :
    ∃ n s2, n ≤ s.total_size_ / bytes
      ∧ repeat_allocate s bytes (2 ^ k) n = some s2
      ∧ do_allocate s2 bytes (2 ^ k) = none := by
  have hin : ∀ c ∈ calls, c.in_range := by
    intro c hc
    have := hwf c hc
    cases c with
    | allocate b a => exact this.2
    | deallocate p b a => trivial
  have hp := run_partitioned calls _ [] s hin (Construct_partitioned max_align base total_bytes) h
  have hfb : ∀ t ∈ s.free_segments_, t.offset + t.size ≤ s.total_size_ :=
    fun t ht => hp.2.1 t (by simp [ht])
  have hword : ∀ t ∈ s.free_segments_, t.offset + t.size < WORD :=
    fun t ht => Nat.lt_of_le_of_lt (hfb t ht) hp.1
  have hE := (run_free_list_shape max_align base total_bytes calls s hwf h).2.1
  have htot : total_bytes_of s.free_segments_ ≤ s.total_size_ := by
    have := ordered_total_le s.free_segments_ s.total_size_ hE hfb 0 (Nat.zero_le _)
      (fun _ _ => Nat.zero_le _)
    omega
  obtain ⟨n, s2, hr, hf, hn⟩ := repeat_allocate_fails bytes k hk hb hbytes
    (total_bytes_of s.free_segments_) s (Nat.le_refl _) hword
  refine ⟨n, s2, ?_, hr, hf⟩
  rw [Nat.le_div_iff_mul_le (by omega)]
  omega

/-! ## C11: out-of-memory boundary -/

/-- C11 (failing input). In the 64-byte arena at base address 4096, after
`allocate(1, 1)`, the accepted request `allocate(2^64 - 1, 2)` and the release of
its block, the free list holds the segment `(2, 2^64 - 1)`. The request
`allocate(32, 1)` satisfies `1 ≤ 32 ≤ total_size_` and `total_size_ / 32 = 2`,
yet it succeeds three times in a row with no release in between. -/
theorem out_of_memory_bound_exceeded :
    run (Construct 16 4096 64)
        [Call.allocate 1 1, Call.allocate (2 ^ 64 - 1) 2, Call.deallocate 4098 0 0]
        = some ⟨4096, 64, [⟨1, 63⟩, ⟨2, 2 ^ 64 - 1⟩], [⟨4096, 1, 0⟩]⟩
      ∧ 64 / 32 = 2
      ∧ do_allocate ⟨4096, 64, [⟨1, 63⟩, ⟨2, 2 ^ 64 - 1⟩], [⟨4096, 1, 0⟩]⟩ 32 1
          = some (4097, ⟨4096, 64, [⟨33, 31⟩, ⟨2, 2 ^ 64 - 1⟩],
              [⟨4096, 1, 0⟩, ⟨4097, 32, 1⟩]⟩)
      ∧ do_allocate ⟨4096, 64, [⟨33, 31⟩, ⟨2, 2 ^ 64 - 1⟩],
            [⟨4096, 1, 0⟩, ⟨4097, 32, 1⟩]⟩ 32 1
          = some (4098, ⟨4096, 64, [⟨33, 31⟩, ⟨34, 2 ^ 64 - 33⟩],
              [⟨4096, 1, 0⟩, ⟨4097, 32, 1⟩, ⟨4098, 32, 2⟩]⟩)
      ∧ do_allocate ⟨4096, 64, [⟨33, 31⟩, ⟨34, 2 ^ 64 - 33⟩],
            [⟨4096, 1, 0⟩, ⟨4097, 32, 1⟩, ⟨4098, 32, 2⟩]⟩ 32 1
          = some (4130, ⟨4096, 64, [⟨33, 31⟩, ⟨66, 2 ^ 64 - 65⟩],
              [⟨4096, 1, 0⟩, ⟨4097, 32, 1⟩, ⟨4098, 32, 2⟩, ⟨4130, 32, 34⟩]⟩) := by
  refine ⟨by decide, by decide, by decide, by decide, by decide⟩

/-! ## C12: construction -/

/-- C12 (failing input). For `total_bytes = 2^64 - 1` and maximum alignment 16
the sum `n + a - 1` of `align_up` wraps around: the constructor sets
`total_size_` to 0, which is below `total_bytes`, and the free list to the
single empty segment `(0, 0)`. -/
theorem Construct_wraps_to_zero :
    align_up (2 ^ 64 - 1) 16 = 0
      ∧ Construct 16 4096 (2 ^ 64 - 1) = ⟨4096, 0, [⟨0, 0⟩], []⟩
      ∧ ¬ (2 ^ 64 - 1 ≤ (Construct 16 4096 (2 ^ 64 - 1)).total_size_) := by
  refine ⟨by decide, by decide, by decide⟩

/-! ## C13: both merges in one release -/

/-- C13 (failing input). In the reachable state with free list `[(0,16),(32,16)]`
(sorted) and the live record `{4112, 16, 16}`, the preceding free segment ends
at 16 and the following one starts at 32; releasing 4112 merges the block into
the preceding segment only and leaves `[(0,32),(32,16)]`, not the single
segment `(0,48)`. -/
theorem release_between_adjacent_merges_once :
    run (Construct 16 4096 48)
        [Call.allocate 16 1, Call.allocate 16 1, Call.allocate 16 1,
         Call.deallocate 4096 16 1, Call.deallocate 4128 16 1]
        = some ⟨4096, 48, [⟨0, 16⟩, ⟨32, 16⟩], [⟨4112, 16, 16⟩]⟩
      ∧ StrictlyAscending [⟨0, 16⟩, ⟨32, 16⟩]
      ∧ (0 + 16 = 16 ∧ 16 + 16 = 32)
      ∧ do_deallocate ⟨4096, 48, [⟨0, 16⟩, ⟨32, 16⟩], [⟨4112, 16, 16⟩]⟩ 4112 16 1
          = some (⟨4096, 48, [⟨0, 32⟩, ⟨32, 16⟩], []⟩, false)
      ∧ do_deallocate ⟨4096, 48, [⟨0, 16⟩, ⟨32, 16⟩], [⟨4112, 16, 16⟩]⟩ 4112 16 1
          ≠ some (⟨4096, 48, [⟨0, 16 + 16 + 16⟩], []⟩, false) := by
  refine ⟨by decide, ?_, by decide, by decide, by decide⟩
  unfold StrictlyAscending
  decide

/-! ## C14: non-adjacency -/

/-- C14 (failing input). After three 16-byte blocks of a fresh 48-byte arena are
released in the order A, C, B, the free list is `[(0,32),(32,16)]`: the first
segment ends exactly where the second starts. -/
theorem adjacent_segments_after_release :
    ∃ s, run (Construct 16 4096 48)
        [Call.allocate 16 1, Call.allocate 16 1, Call.allocate 16 1,
         Call.deallocate 4096 16 1, Call.deallocate 4128 16 1, Call.deallocate 4112 16 1]
        = some s
      ∧ ∃ a ∈ s.free_segments_, ∃ b ∈ s.free_segments_, a.offset + a.size = b.offset := by
  refine ⟨⟨4096, 48, [⟨0, 32⟩, ⟨32, 16⟩], []⟩, by decide, ⟨0, 32⟩, by simp, ⟨32, 16⟩, by simp, ?_⟩
  decide

/-! ## C15: ordering -/

/-- C15 (amended). Ordering: in every state reached from the constructor by
calls in range (power-of-two alignment, `bytes + alignment` at most `2 ^ 64`)
whose `allocate` requests ask for at least one byte, the free list is sorted
strictly ascending by offset, every free segment ends at or before the offset
of every later one, and the ranges of the free segments are pairwise disjoint;
every release that returns has therefore inserted the freed segment at a
position that keeps this order. -/
theorem free_list_ordered (max_align base total_bytes : Nat) (calls : List Call) (s : State)
    (hwf : ∀ c ∈ calls, c.positive)
    (h : run (Construct max_align base total_bytes) calls = some s) :
    StrictlyAscending s.free_segments_ ∧ EndsBeforeNext s.free_segments_
      ∧ s.free_segments_.Pairwise NoCommonByte :=
  run_free_list_shape max_align base total_bytes calls s hwf h

theorem free_list_ordered_witness :
    (∀ c ∈ [Call.allocate 16 8, Call.allocate 8 1, Call.allocate 8 8,
            Call.deallocate 4096 16 8, Call.deallocate 4120 8 8], c.positive)
      ∧ StrictlyAscending [⟨0, 16⟩, ⟨24, 24⟩]
      ∧ EndsBeforeNext [⟨0, 16⟩, ⟨24, 24⟩]
      ∧ [(⟨0, 16⟩ : Segment), ⟨24, 24⟩].Pairwise NoCommonByte :=
  have hwf : ∀ c ∈ [Call.allocate 16 8, Call.allocate 8 1, Call.allocate 8 8,
      Call.deallocate 4096 16 8, Call.deallocate 4120 8 8], c.positive := by
    intro c hc
    simp only [List.mem_cons, List.mem_singleton, List.not_mem_nil, or_false] at hc
    rcases hc with rfl | rfl | rfl | rfl | rfl
    · exact ⟨by decide, 3, by decide, by decide, by decide⟩
    · exact ⟨by decide, 0, by decide, by decide, by decide⟩
    · exact ⟨by decide, 3, by decide, by decide, by decide⟩
    · trivial
    · trivial
  ⟨hwf, free_list_ordered 16 4096 48
    [Call.allocate 16 8, Call.allocate 8 1, Call.allocate 8 8,
     Call.deallocate 4096 16 8, Call.deallocate 4120 8 8]
    ⟨4096, 48, [⟨0, 16⟩, ⟨24, 24⟩], [⟨4112, 8, 16⟩]⟩ hwf (by decide)⟩

/-- C15 (counterexample). A request of size 0 is recorded at offset 0 without
shrinking the segment `(0, 64)`; releasing it inserts the empty segment `(0, 0)`
behind `(0, 64)`: the free list `[(0,64),(0,0)]` is not sorted strictly
ascending by offset. The next `allocate(8, 1)` leaves `[(8,56),(0,0)]`, which is
not ascending at all. -/
theorem ordering_counterexample :
    ∃ s, run (Construct 16 4096 64) [Call.allocate 0 1, Call.deallocate 4096 0 1] = some s
      ∧ ¬ StrictlyAscending s.free_segments_
      ∧ ∃ s2, run s [Call.allocate 8 1] = some s2
          ∧ ¬ s2.free_segments_.Pairwise (fun a b => a.offset ≤ b.offset) := by
  refine ⟨⟨4096, 64, [⟨0, 64⟩, ⟨0, 0⟩], []⟩, by decide, ?_,
    ⟨4096, 64, [⟨8, 56⟩, ⟨0, 0⟩], [⟨4096, 8, 0⟩]⟩, by decide, ?_⟩
  · unfold StrictlyAscending
    decide
  · decide

/-! ## C16: carve -/

/-- Carve in the arithmetic of the code: when `do_allocate` succeeds it has
selected the first segment `{o, s}` that passes the fit test, with padding `p`. It returns
`base_addr_ + (o + p)`; the segment is erased when `p + bytes == s` and is
otherwise replaced in place by `{o + (p + bytes), s - (p + bytes)}`; the
segments in front of it and behind it keep their values and positions; the
registry is the old registry followed by the one record
`{pointer, bytes, o + p}`; the base address and the capacity are unchanged.
The sums are those of the code (`std::size_t`); for a power-of-two alignment
with `bytes + alignment ≤ 2 ^ 64` and a segment that ends below `2 ^ 64` they
are the exact sums and differences. -/
theorem allocate_carve (s : State) (bytes alignment p : Nat) (s2 : State)
    (h : do_allocate s bytes alignment = some (p, s2)) :
    ∃ pre seg post, s.free_segments_ = pre ++ seg :: post
      ∧ fits s.base_addr_ bytes alignment seg = true
      ∧ (∀ t ∈ pre, fits s.base_addr_ bytes alignment t = false)
      ∧ p = wadd s.base_addr_ (wadd seg.offset (padding s.base_addr_ seg.offset alignment))
      ∧ s2.free_segments_ = pre ++
          (if wadd (padding s.base_addr_ seg.offset alignment) bytes = seg.size then post
           else { offset := wadd seg.offset (wadd (padding s.base_addr_ seg.offset alignment) bytes),
                  size := wsub seg.size (wadd (padding s.base_addr_ seg.offset alignment) bytes) }
                :: post)
      ∧ s2.allocated_ = s.allocated_ ++
          [{ ptr := p, size := bytes,
             offset := wadd seg.offset (padding s.base_addr_ seg.offset alignment) }]
      ∧ s2.base_addr_ = s.base_addr_ ∧ s2.total_size_ = s.total_size_
      ∧ (∀ k, k < 64 → alignment = 2 ^ k → bytes + alignment ≤ WORD →
          seg.offset + seg.size < WORD →
          padding s.base_addr_ seg.offset alignment + bytes ≤ seg.size
            ∧ wadd (padding s.base_addr_ seg.offset alignment) bytes
                = padding s.base_addr_ seg.offset alignment + bytes
            ∧ wadd seg.offset (padding s.base_addr_ seg.offset alignment)
                = seg.offset + padding s.base_addr_ seg.offset alignment
            ∧ wadd seg.offset (wadd (padding s.base_addr_ seg.offset alignment) bytes)
                = seg.offset + (padding s.base_addr_ seg.offset alignment + bytes)
            ∧ wsub seg.size (wadd (padding s.base_addr_ seg.offset alignment) bytes)
                = seg.size - (padding s.base_addr_ seg.offset alignment + bytes)
            ∧ (s.base_addr_ + seg.offset + padding s.base_addr_ seg.offset alignment < WORD →
                p = s.base_addr_ + seg.offset + padding s.base_addr_ seg.offset alignment)) := by
  unfold do_allocate at h
  cases hs : scan s.base_addr_ bytes alignment s.free_segments_ with
  | none => simp [hs] at h
  | some c =>
    simp only [hs, Option.some.injEq, Prod.mk.injEq] at h
    obtain ⟨hp, hs2⟩ := h
    subst hs2
    obtain ⟨pre, seg, post, e, hpre, hseg, -, -, hrec, hfree⟩ := scan_some _ _ _ _ c hs
    have hptr : p = wadd s.base_addr_
        (wadd seg.offset (padding s.base_addr_ seg.offset alignment)) := by
      rw [← hp, hrec]
      rfl
    refine ⟨pre, seg, post, e, hseg, hpre, hptr, hfree, ?_, rfl, rfl, ?_⟩
    · show s.allocated_ ++ [c.record] = _
      rw [hrec, hptr]
      rfl
    · intro k hk hal hb hsz
      subst hal
      have hpl := padding_lt s.base_addr_ seg.offset k hk
      have hu : wadd (padding s.base_addr_ seg.offset (2 ^ k)) bytes
          = padding s.base_addr_ seg.offset (2 ^ k) + bytes :=
        wadd_eq (padding s.base_addr_ seg.offset (2 ^ k)) bytes (by omega)
      have hle : padding s.base_addr_ seg.offset (2 ^ k) + bytes ≤ seg.size := by
        unfold fits used_total at hseg
        rw [hu] at hseg
        simpa using hseg
      have ho : wadd seg.offset (padding s.base_addr_ seg.offset (2 ^ k))
          = seg.offset + padding s.base_addr_ seg.offset (2 ^ k) :=
        wadd_eq seg.offset (padding s.base_addr_ seg.offset (2 ^ k)) (by omega)
      refine ⟨hle, hu, ho, ?_, ?_, ?_⟩
      · rw [hu]
        exact wadd_eq seg.offset (padding s.base_addr_ seg.offset (2 ^ k) + bytes) (by omega)
      · rw [hu]
        exact wsub_eq seg.size (padding s.base_addr_ seg.offset (2 ^ k) + bytes) (by omega) hle
      · intro hb2
        rw [hptr, ho]
        unfold wadd
        rw [Nat.mod_eq_of_lt (by omega)]
        omega

theorem allocate_carve_witness :
    ∃ pre seg post, [(⟨0, 4⟩ : Segment), ⟨17, 15⟩, ⟨40, 8⟩] = pre ++ seg :: post
      ∧ fits 4096 8 8 seg = true
      ∧ (∀ t ∈ pre, fits 4096 8 8 t = false)
      ∧ 4120 = wadd 4096 (wadd seg.offset (padding 4096 seg.offset 8))
      ∧ [(⟨0, 4⟩ : Segment), ⟨40, 8⟩] = pre ++
          (if wadd (padding 4096 seg.offset 8) 8 = seg.size then post
           else { offset := wadd seg.offset (wadd (padding 4096 seg.offset 8) 8),
                  size := wsub seg.size (wadd (padding 4096 seg.offset 8) 8) }
                :: post)
      ∧ [(⟨4096, 4, 0⟩ : AllocRec), ⟨4120, 8, 24⟩] = [⟨4096, 4, 0⟩] ++
          [{ ptr := 4120, size := 8, offset := wadd seg.offset (padding 4096 seg.offset 8) }]
      ∧ 4096 = 4096 ∧ 48 = 48
      ∧ (∀ k, k < 64 → 8 = 2 ^ k → 8 + 8 ≤ WORD →
          seg.offset + seg.size < WORD →
          padding 4096 seg.offset 8 + 8 ≤ seg.size
            ∧ wadd (padding 4096 seg.offset 8) 8 = padding 4096 seg.offset 8 + 8
            ∧ wadd seg.offset (padding 4096 seg.offset 8)
                = seg.offset + padding 4096 seg.offset 8
            ∧ wadd seg.offset (wadd (padding 4096 seg.offset 8) 8)
                = seg.offset + (padding 4096 seg.offset 8 + 8)
            ∧ wsub seg.size (wadd (padding 4096 seg.offset 8) 8)
                = seg.size - (padding 4096 seg.offset 8 + 8)
            ∧ (4096 + seg.offset + padding 4096 seg.offset 8 < WORD →
                4120 = 4096 + seg.offset + padding 4096 seg.offset 8)) :=
  allocate_carve ⟨4096, 48, [⟨0, 4⟩, ⟨17, 15⟩, ⟨40, 8⟩], [⟨4096, 4, 0⟩]⟩ 8 8 4120
    ⟨4096, 48, [⟨0, 4⟩, ⟨40, 8⟩], [⟨4096, 4, 0⟩, ⟨4120, 8, 24⟩]⟩ (by decide)

/-- C16 (failing input). After `Construct(64)` at base address 4096 and
`allocate(1, 1)` the free list is `[(1, 63)]`. The request
`allocate(2^64 - 1, 2)` selects the segment `{o, s} = (1, 63)` with padding
`p = 1` and returns `base + o + p = 4098` with the record
`{4098, 2^64 - 1, 2}`; `p + size = 2^64` differs from `s`, so the segment should
be replaced by `{o + p + size, s - (p + size)}`, but the code computes
`used_total = 0` and leaves the segment `(1, 63)` as it is. -/
theorem carve_leaves_segment_untouched :
    run (Construct 16 4096 64) [Call.allocate 1 1]
        = some ⟨4096, 64, [⟨1, 63⟩], [⟨4096, 1, 0⟩]⟩
      ∧ padding 4096 1 2 = 1
      ∧ used_total 4096 (2 ^ 64 - 1) 2 ⟨1, 63⟩ = 0
      ∧ 1 + (2 ^ 64 - 1) ≠ 63
      ∧ do_allocate ⟨4096, 64, [⟨1, 63⟩], [⟨4096, 1, 0⟩]⟩ (2 ^ 64 - 1) 2
          = some (4098, ⟨4096, 64, [⟨1, 63⟩], [⟨4096, 1, 0⟩, ⟨4098, 2 ^ 64 - 1, 2⟩]⟩)
      ∧ (⟨1, 63⟩ : Segment) ≠ ⟨1 + 1 + (2 ^ 64 - 1), 63 - (1 + (2 ^ 64 - 1))⟩ := by
  refine ⟨by decide, by decide, by decide, by decide, by decide, by decide⟩

/-! ## C17: bounds -/

/-- C17 (failing input). In the 64-byte arena at base address 4096, after
`allocate(1, 1)` the request `allocate(2^64 - 1, 2)` is accepted and leaves the
live record `{4098, 2^64 - 1, 2}`, whose `offset + size` exceeds `total_size_`;
releasing it puts the segment `(2, 2^64 - 1)` into the free list, which exceeds
`total_size_` as well. -/
theorem record_exceeds_total_size :
    run (Construct 16 4096 64) [Call.allocate 1 1, Call.allocate (2 ^ 64 - 1) 2]
        = some ⟨4096, 64, [⟨1, 63⟩], [⟨4096, 1, 0⟩, ⟨4098, 2 ^ 64 - 1, 2⟩]⟩
      ∧ ¬ (2 + (2 ^ 64 - 1) ≤ 64)
      ∧ do_deallocate ⟨4096, 64, [⟨1, 63⟩], [⟨4096, 1, 0⟩, ⟨4098, 2 ^ 64 - 1, 2⟩]⟩ 4098 0 0
          = some (⟨4096, 64, [⟨1, 63⟩, ⟨2, 2 ^ 64 - 1⟩], [⟨4096, 1, 0⟩]⟩, false) := by
  refine ⟨by decide, by decide, by decide⟩

/-! ## C18: iterators of `insert_and_coalesce` -/

/-- C18 (failing input). In a 16-byte arena filled by two 8-byte blocks, after
the block at offset 0 is released, the release of the block at offset 8 inserts
`(8, 8)` at the tail of the free list `[(0, 8)]` and merges it into its
predecessor; `inserted = erase(inserted)` is then `end()`, and the
following-segment check applies `std::next` to `end()`. -/
theorem coalesce_advances_past_end :
    run (Construct 16 4096 16)
        [Call.allocate 8 1, Call.allocate 8 1, Call.deallocate 4096 8 1]
        = some ⟨4096, 16, [⟨0, 8⟩], [⟨4104, 8, 8⟩]⟩
      ∧ find_erase 4104 [⟨4104, 8, 8⟩] = some (⟨4104, 8, 8⟩, [])
      ∧ List.dropWhile (fun t => !decide ((8 : Nat) < t.offset)) [(⟨0, 8⟩ : Segment)] = []
      ∧ (List.takeWhile (fun t => !decide ((8 : Nat) < t.offset))
            [(⟨0, 8⟩ : Segment)]).getLast? = some ⟨0, 8⟩
      ∧ wadd 0 8 = 8
      ∧ merge_next [] = none
      ∧ insert_and_coalesce [⟨0, 8⟩] ⟨8, 8⟩ = none
      ∧ do_deallocate ⟨4096, 16, [⟨0, 8⟩], [⟨4104, 8, 8⟩]⟩ 4104 8 1 = none := by
  refine ⟨by decide, by decide, by decide, by decide, by decide, by decide, by decide, by decide⟩

/-! ## C19: round trip -/

/-- C19 (amended). Round trip: for every state whose free list is sorted
strictly ascending and non-adjacent with every segment ending below `2 ^ 64`,
and every request of `1 ≤ bytes < 2 ^ 64` that succeeds with zero alignment
padding and returns a pointer that no record of the registry carried before the
call, releasing the returned pointer right after the allocate (with any size
and alignment) completes without diagnostic and restores the whole state: the
free list and the registry are exactly those before the allocate. -/
theorem allocate_release_round_trip (s : State) (bytes alignment p : Nat) (s2 : State)
    (bytes2 alignment2 : Nat)
    (hasc : StrictlyAscending s.free_segments_)
    (hnadj : NonAdjacent s.free_segments_)
    (hword : ∀ t ∈ s.free_segments_, t.offset + t.size < WORD)
    (hbytes : 1 ≤ bytes) (hbw : bytes < WORD)
    (h : do_allocate s bytes alignment = some (p, s2))
    (hpad : ∀ c, scan s.base_addr_ bytes alignment s.free_segments_ = some c → c.padding = 0)
    (hfresh : ∀ r ∈ s.allocated_, r.ptr ≠ p) :
    do_deallocate s2 p bytes2 alignment2 = some (s, false) := by
  unfold do_allocate at h
  cases hs : scan s.base_addr_ bytes alignment s.free_segments_ with
  | none => simp [hs] at h
  | some c =>
    simp only [hs, Option.some.injEq, Prod.mk.injEq] at h
    obtain ⟨hp, hs2⟩ := h
    subst hs2
    obtain ⟨pre, seg, post, e, -, hfit, -, hpadc, hrec, hfree⟩ := scan_some _ _ _ _ c hs
    have hp0 : padding s.base_addr_ seg.offset alignment = 0 := by
      rw [← hpadc]
      exact hpad c hs
    obtain ⟨o, sz⟩ := seg
    simp only at hp0 hfit hrec hfree
    have hseg : o + sz < WORD := hword ⟨o, sz⟩ (by simp [e])
    have hu : used_total s.base_addr_ bytes alignment ⟨o, sz⟩ = bytes := by
      unfold used_total
      simp only [hp0]
      unfold wadd
      rw [Nat.zero_add]
      exact Nat.mod_eq_of_lt hbw
    have hle : bytes ≤ sz := by
      unfold fits at hfit
      rw [hu] at hfit
      simpa using hfit
    have hro : result_offset s.base_addr_ alignment ⟨o, sz⟩ = o := by
      unfold result_offset
      simp only [hp0]
      unfold wadd
      rw [Nat.add_zero]
      exact Nat.mod_eq_of_lt (by omega)
    rw [hu] at hfree
    rw [hro] at hrec
    simp only [wadd_eq o bytes (by omega), wsub_eq sz bytes (by omega) hle] at hfree
    -- the shape of the old free list
    unfold StrictlyAscending at hasc
    unfold NonAdjacent at hnadj
    rw [e] at hasc hnadj
    have hasc2 := List.pairwise_append.mp hasc
    have hnadj2 := List.pairwise_append.mp hnadj
    have hpre_lt : ∀ t ∈ pre, t.offset < o := fun t ht =>
      hasc2.2.2 t ht ⟨o, sz⟩ (List.mem_cons_self _ _)
    have hpost_gt : ∀ u ∈ post, o < u.offset := fun u hu =>
      (List.pairwise_cons.mp hasc2.2.1).1 u hu
    have hpre_na : ∀ t ∈ pre, t.offset + t.size ≠ o := fun t ht =>
      hnadj2.2.2 t ht ⟨o, sz⟩ (List.mem_cons_self _ _)
    have hpost_na : ∀ u ∈ post, o + sz ≠ u.offset := fun u hu =>
      (List.pairwise_cons.mp hnadj2.2.1).1 u hu
    -- the lookup
    have hfind : find_erase p (s.allocated_ ++ [c.record]) = some (c.record, s.allocated_) :=
      find_erase_append_last p s.allocated_ c.record hfresh hp
    -- the carved list and the insert position
    have hsplit : ∃ rest, c.free = pre ++ rest
        ∧ (∀ t ∈ rest.head?, o < t.offset)
        ∧ merge_next (⟨o, bytes⟩ :: rest) = some (⟨o, sz⟩ :: post) := by
      by_cases hx : bytes = sz
      · rw [if_pos hx] at hfree
        refine ⟨post, hfree, ?_, ?_⟩
        · intro t ht
          cases post with
          | nil => simp at ht
          | cons u tl =>
            simp only [List.head?_cons, Option.mem_def, Option.some.injEq] at ht
            subst ht
            exact hpost_gt _ (List.mem_cons_self _ _)
        · subst hx
          cases post with
          | nil => rfl
          | cons u tl =>
            have hna : o + bytes ≠ u.offset := hpost_na u (List.mem_cons_self _ _)
            unfold merge_next
            simp only [wadd_eq o bytes (by omega)]
            rw [if_neg hna]
      · rw [if_neg hx] at hfree
        refine ⟨⟨o + bytes, sz - bytes⟩ :: post, hfree, ?_, ?_⟩
        · intro t ht
          simp only [List.head?_cons, Option.mem_def, Option.some.injEq] at ht
          subst ht
          show o < o + bytes
          omega
        · unfold merge_next
          simp only [wadd_eq o bytes (by omega), if_true]
          rw [wadd_eq bytes (sz - bytes) (by omega)]
          have : bytes + (sz - bytes) = sz := by omega
          rw [this]
    obtain ⟨rest, hcf, hhead, hmerge⟩ := hsplit
    have hpos := insert_position pre rest o (fun t ht => by
      have := hpre_lt t ht
      omega) hhead
    have hins : insert_and_coalesce c.free ⟨o, bytes⟩ = some (pre ++ ⟨o, sz⟩ :: post) := by
      unfold insert_and_coalesce
      simp only
      rw [hcf, hpos.1, hpos.2]
      cases hlast : pre.getLast? with
      | none =>
        have hnil : pre = [] := List.getLast?_eq_none_iff.mp hlast
        subst hnil
        simpa using hmerge
      | some prev =>
        have hmem : prev ∈ pre := List.mem_of_getLast?_eq_some hlast
        have hb : prev.offset + prev.size < WORD := hword prev (by simp [e, hmem])
        have hna : prev.offset + prev.size ≠ o := hpre_na prev hmem
        simp only [wadd_eq prev.offset prev.size hb]
        rw [if_neg hna, hmerge]
    unfold do_deallocate
    simp only [hfind]
    have hrange : (⟨c.record.offset, c.record.size⟩ : Segment) = ⟨o, bytes⟩ := by
      rw [hrec]
    rw [hrange, hins]
    simp only [Option.some.injEq, Prod.mk.injEq, and_true]
    rw [← e]

theorem allocate_release_round_trip_witness :
    StrictlyAscending [⟨0, 4⟩, ⟨16, 16⟩, ⟨40, 8⟩]
      ∧ NonAdjacent [⟨0, 4⟩, ⟨16, 16⟩, ⟨40, 8⟩]
      ∧ (∀ t ∈ [(⟨0, 4⟩ : Segment), ⟨16, 16⟩, ⟨40, 8⟩], t.offset + t.size < WORD)
      ∧ 1 ≤ 8 ∧ 8 < WORD
      ∧ do_allocate ⟨4096, 48, [⟨0, 4⟩, ⟨16, 16⟩, ⟨40, 8⟩], [⟨4100, 12, 4⟩]⟩ 8 8
          = some (4112, ⟨4096, 48, [⟨0, 4⟩, ⟨24, 8⟩, ⟨40, 8⟩], [⟨4100, 12, 4⟩, ⟨4112, 8, 16⟩]⟩)
      ∧ (∀ c, scan 4096 8 8 [⟨0, 4⟩, ⟨16, 16⟩, ⟨40, 8⟩] = some c → c.padding = 0)
      ∧ (∀ r ∈ [(⟨4100, 12, 4⟩ : AllocRec)], r.ptr ≠ 4112)
      ∧ do_deallocate ⟨4096, 48, [⟨0, 4⟩, ⟨24, 8⟩, ⟨40, 8⟩], [⟨4100, 12, 4⟩, ⟨4112, 8, 16⟩]⟩
            4112 1 1
          = some (⟨4096, 48, [⟨0, 4⟩, ⟨16, 16⟩, ⟨40, 8⟩], [⟨4100, 12, 4⟩]⟩, false) :=
  have hasc : StrictlyAscending [⟨0, 4⟩, ⟨16, 16⟩, ⟨40, 8⟩] := by
    unfold StrictlyAscending
    decide
  have hnadj : NonAdjacent [⟨0, 4⟩, ⟨16, 16⟩, ⟨40, 8⟩] := by
    unfold NonAdjacent
    decide
  have hword : ∀ t ∈ [(⟨0, 4⟩ : Segment), ⟨16, 16⟩, ⟨40, 8⟩], t.offset + t.size < WORD := by
    decide
  have hpad : ∀ c, scan 4096 8 8 [⟨0, 4⟩, ⟨16, 16⟩, ⟨40, 8⟩] = some c → c.padding = 0 := by
    intro c hc
    have : scan 4096 8 8 [⟨0, 4⟩, ⟨16, 16⟩, ⟨40, 8⟩]
        = some ⟨16, 0, [⟨0, 4⟩, ⟨24, 8⟩, ⟨40, 8⟩], ⟨4112, 8, 16⟩⟩ := by decide
    rw [this] at hc
    cases hc
    rfl
  ⟨hasc, hnadj, hword, by decide, by decide, by decide, hpad, by decide,
   allocate_release_round_trip ⟨4096, 48, [⟨0, 4⟩, ⟨16, 16⟩, ⟨40, 8⟩], [⟨4100, 12, 4⟩]⟩ 8 8 4112
     ⟨4096, 48, [⟨0, 4⟩, ⟨24, 8⟩, ⟨40, 8⟩], [⟨4100, 12, 4⟩, ⟨4112, 8, 16⟩]⟩ 1 1
     hasc hnadj hword (by decide) (by decide) (by decide) hpad (by decide)⟩

/-- C19 (counterexample). After `Construct(64)` and `allocate(0, 1)` the free
list is `[(0, 64)]` (sorted, disjoint, non-adjacent) and the registry holds the
record `{4096, 0, 0}`. The request `allocate(8, 1)` succeeds with padding 0 and
returns 4096 again; releasing 4096 erases the older record, so the registry
ends as `[{4096, 8, 0}]` and the free list as `[(0,0),(8,56)]`: neither is
restored. -/
theorem round_trip_counterexample :
    run (Construct 16 4096 64) [Call.allocate 0 1]
        = some ⟨4096, 64, [⟨0, 64⟩], [⟨4096, 0, 0⟩]⟩
      ∧ StrictlyAscending [⟨0, 64⟩] ∧ EndsBeforeNext [⟨0, 64⟩] ∧ NonAdjacent [⟨0, 64⟩]
      ∧ padding 4096 0 1 = 0
      ∧ do_allocate ⟨4096, 64, [⟨0, 64⟩], [⟨4096, 0, 0⟩]⟩ 8 1
          = some (4096, ⟨4096, 64, [⟨8, 56⟩], [⟨4096, 0, 0⟩, ⟨4096, 8, 0⟩]⟩)
      ∧ do_deallocate ⟨4096, 64, [⟨8, 56⟩], [⟨4096, 0, 0⟩, ⟨4096, 8, 0⟩]⟩ 4096 8 1
          = some (⟨4096, 64, [⟨0, 0⟩, ⟨8, 56⟩], [⟨4096, 8, 0⟩]⟩, false)
      ∧ [(⟨0, 0⟩ : Segment), ⟨8, 56⟩] ≠ [⟨0, 64⟩]
      ∧ [(⟨4096, 8, 0⟩ : AllocRec)] ≠ [⟨4096, 0, 0⟩] := by
  refine ⟨by decide, ?_, ?_, ?_, by decide, by decide, by decide, by decide, by decide⟩
  · unfold StrictlyAscending
    decide
  · unfold EndsBeforeNext
    decide
  · unfold NonAdjacent
    decide

/-! ## C20: oversized requests -/

/-- C20 (failing input). In the fresh 64-byte arena at base address 4096 the
request `allocate(2^64 - 4096, 8192)` exceeds `total_size_`; its padding is 4096
and the sum `padding + bytes = 2^64` wraps to 0, so the fit test passes:
`do_allocate` returns the address 8192 and records a live block of
`2^64 - 4096` bytes at offset 4096, outside the arena. -/
theorem oversized_request_accepted :
    (Construct 16 4096 64).total_size_ = 64
      ∧ 64 < 2 ^ 64 - 4096
      ∧ padding 4096 0 8192 = 4096
      ∧ 4096 + (2 ^ 64 - 4096) = 2 ^ 64
      ∧ used_total 4096 (2 ^ 64 - 4096) 8192 ⟨0, 64⟩ = 0
      ∧ do_allocate (Construct 16 4096 64) (2 ^ 64 - 4096) 8192
          = some (8192, ⟨4096, 64, [⟨0, 64⟩], [⟨8192, 2 ^ 64 - 4096, 4096⟩]⟩) := by
  refine ⟨by decide, by decide, by decide, by decide, by decide, by decide⟩

end FixedBlockMemoryResource
